import Mathlib

/-! Verification development for the genienlp evaluation-metric and
entity-disambiguation modules (`genienlp/metrics.py`, `genienlp/ned/main.py`).

Python strings are modelled as Lean `String` values (lists of characters);
the character-level helpers below reproduce the behaviour of the Python
string operations used by the source: the ASCII fragment of `str.lower`,
`str.split`, `str.strip`, `str.replace`, substring search, and the constant
`string.punctuation`.  Python floats are modelled as exact rationals, and
code that can raise a Python exception is modelled with `Option`. -/

/-- Whitespace characters recognised by Python `str.split()` and
`str.strip()` (ASCII fragment). -/
def wsChars : List Char := [' ', '\t', '\n', '\r', '\x0b', '\x0c']

def isWs (c : Char) : Bool := wsChars.contains c

/-- ASCII case table of Python `str.lower`. -/
def upperLower : List (Char × Char) :=
  [('A', 'a'), ('B', 'b'), ('C', 'c'), ('D', 'd'), ('E', 'e'), ('F', 'f'),
   ('G', 'g'), ('H', 'h'), ('I', 'i'), ('J', 'j'), ('K', 'k'), ('L', 'l'),
   ('M', 'm'), ('N', 'n'), ('O', 'o'), ('P', 'p'), ('Q', 'q'), ('R', 'r'),
   ('S', 's'), ('T', 't'), ('U', 'u'), ('V', 'v'), ('W', 'w'), ('X', 'x'),
   ('Y', 'y'), ('Z', 'z')]

def lowerChar (c : Char) : Char := (upperLower.lookup c).getD c

/-- Python `str.lower` (ASCII fragment). -/
def lowerS (s : String) : String := ⟨s.data.map lowerChar⟩

/-- One step of the `foldr` that implements Python `str.split()`:
whitespace closes the current chunk, any other character is prepended to it. -/
def addTok (c : Char) (acc : List (List Char)) : List (List Char) :=
  if isWs c then [] :: acc
  else
    match acc with
    | [] => [[c]]
    | w :: ws => (c :: w) :: ws

def wsTokensRaw (l : List Char) : List (List Char) := l.foldr addTok []

/-- The whitespace-delimited chunks of `l`, empties dropped — the token list
returned by Python `str.split()` with no argument. -/
def wsTokensC (l : List Char) : List (List Char) :=
  (wsTokensRaw l).filter (fun w => !w.isEmpty)

/-- Python `s.split()`. -/
def pySplit (s : String) : List String := (wsTokensC s.data).map (fun w => ⟨w⟩)

/-- Python `' '.join` at the character level. -/
def joinSpaceC : List (List Char) → List Char
  | [] => []
  | [w] => w
  | w :: ws => w ++ ' ' :: joinSpaceC ws

/-- Python `' '.join(ss)`. -/
def joinSpace (ss : List String) : String := ⟨joinSpaceC (ss.map String.data)⟩

def stripC (l : List Char) : List Char :=
  ((l.dropWhile isWs).reverse.dropWhile isWs).reverse

/-- Python `s.strip()`. -/
def pyStrip (s : String) : String := ⟨stripC s.data⟩

/-- Longest prefix of characters satisfying `p`, paired with the rest. -/
def takeRun (p : Char → Bool) : List Char → List Char × List Char
  | [] => ([], [])
  | c :: rest =>
    if p c then
      let r := takeRun p rest
      (c :: r.1, r.2)
    else ([], c :: rest)

/-- Word characters of the Python regex `\b` / `\w` semantics (ASCII). -/
def isWordChar (c : Char) : Bool := c.isAlphanum || c == '_'

/-- One step of the segmentation of a string into maximal word-character runs
(tagged `true`) and single non-word characters (tagged `false`). -/
def segChar (c : Char) (acc : List (Bool × List Char)) : List (Bool × List Char) :=
  if isWordChar c then
    match acc with
    | (true, w) :: rest => (true, c :: w) :: rest
    | _ => (true, [c]) :: acc
  else (false, [c]) :: acc

def segs (l : List Char) : List (Bool × List Char) := l.foldr segChar []

def articleRuns : List (List Char) := [['a'], ['a', 'n'], ['t', 'h', 'e']]

/-- Python `re.sub(r'\b(a|an|the)\b', ' ', text)`: the regex matches exactly
the maximal word-character runs equal to `a`, `an` or `the`, and each match is
replaced by a single space. -/
def removeArticlesC (l : List Char) : List Char :=
  ((segs l).map (fun s => if s.1 && articleRuns.contains s.2 then [' '] else s.2)).flatten

/-- The 32 characters of Python `string.punctuation`. -/
def punctChars : List Char :=
  ['!', '"', '#', '$', '%', '&', '\x27', '(', ')', '*', '+', ',', '-', '.',
   '/', ':', ';', '<', '=', '>', '?', '@', '[', '\\', ']', '^', '_', '\x60',
   '\x7b', '|', '\x7d', '~']

def removePuncC (l : List Char) : List Char :=
  l.filter (fun c => !punctChars.contains c)

def whiteSpaceFixC (l : List Char) : List Char := joinSpaceC (wsTokensC l)

/-- metrics.normalize_text: lower-case, remove punctuation, remove the
articles `a`/`an`/`the`, and collapse whitespace (in that order). -/
def normalize_text (s : String) : String :=
  ⟨whiteSpaceFixC (removeArticlesC (removePuncC (s.data.map lowerChar)))⟩

example : normalize_text "The quick  A Fox_an " = "quick foxan" := by decide
example : normalize_text "a-b the" = "ab" := by decide
example : normalize_text (normalize_text "The quick a Fox-an ")
    = normalize_text "The quick a Fox-an " := by decide

/-- Index of the first occurrence of `pat` as a sublist of `l`, if any
(Python `str.find` / the `in` operator on strings). -/
def findSub (pat : List Char) : List Char → Option Nat
  | [] => if pat.isEmpty then some 0 else none
  | c :: rest =>
    if pat.isPrefixOf (c :: rest) then some 0
    else (findSub pat rest).map (· + 1)

/-- Python `needle in hay` for strings. -/
def substrIn (needle hay : String) : Bool := (findSub needle.data hay.data).isSome

/-- Python `s.split(sep, 1)` when `sep` occurs in `s`. -/
def splitOnce (sep s : String) : Option (String × String) :=
  (findSub sep.data s.data).map fun i =>
    (⟨s.data.take i⟩, ⟨s.data.drop (i + sep.data.length)⟩)

/-- Fuel-driven core of Python `str.replace`: replaces non-overlapping
occurrences of the (non-empty) pattern `p0 :: prest` left to right.  The fuel
is an upper bound on the length of the remaining text, so it never runs out
when `replaceAll` supplies `l.length`. -/
def replGo (p0 : Char) (prest rep : List Char) : Nat → List Char → List Char
  | 0, l => l
  | _ + 1, [] => []
  | fuel + 1, c :: rest =>
    if (p0 :: prest).isPrefixOf (c :: rest) then
      rep ++ replGo p0 prest rep fuel (rest.drop prest.length)
    else c :: replGo p0 prest rep fuel rest

/-- Python `s.replace(pat, rep)` for a non-empty pattern (all patterns used by
`to_lf` start with a space or a letter, so are non-empty). -/
def replaceAll (s pat rep : String) : String :=
  match pat.data with
  | [] => s
  | p0 :: prest => ⟨replGo p0 prest rep.data s.data.length s.data⟩

example : replaceAll " a a a " " a " " X " = " X a X " := by decide

/-- Python `int()` on a whitespace-free token: optional sign followed by at
least one digit; anything else raises `ValueError` (`none` here). -/
def pyInt : List Char → Option Int
  | [] => none
  | '-' :: rest =>
    if rest ≠ [] ∧ rest.all Char.isDigit
    then some (-(rest.foldl (fun n c => n * 10 + (c.toNat - 48)) 0 : Nat)) else none
  | '+' :: rest =>
    if rest ≠ [] ∧ rest.all Char.isDigit
    then some ((rest.foldl (fun n c => n * 10 + (c.toNat - 48)) 0 : Nat)) else none
  | l =>
    if l.all Char.isDigit
    then some ((l.foldl (fun n c => n * 10 + (c.toNat - 48)) 0 : Nat)) else none

example : pyInt "12".data = some 12 := by decide
example : pyInt "-3".data = some (-3) := by decide
example : pyInt "co".data = none := by decide

/-- Python list indexing `l[i]`, including negative-index wrap-around;
`none` models `IndexError`. -/
def pyIdx {α : Type} (l : List α) (i : Int) : Option α :=
  if 0 ≤ i then l.get? i.toNat
  else if -i ≤ (l.length : Int) then l.get? (l.length - (-i).toNat) else none

example : pyIdx ["a", "b", "c"] (-1) = some "c" := by decide

/-- Python `range(hi, lo - 1, -1)`: `hi, hi-1, ..., lo` (empty when
`hi < lo`). -/
def descRange (hi lo : Nat) : List Nat :=
  (List.range (hi + 1 - lo)).map (fun j => hi - j)

example : descRange 4 2 = [4, 3, 2] := by decide
example : descRange 3 0 = [3, 2, 1, 0] := by decide
example : descRange 1 2 = [] := by decide

/-- First-occurrence deduplication: the key order of a Python (Ordered)dict
built by inserting keys left to right. -/
def firstDedup (l : List String) : List String :=
  l.foldl (fun acc k => if k ∈ acc then acc else acc ++ [k]) []

example : firstDedup ["em", "f1", "em"] = ["em", "f1"] := by decide

/-- metrics.f1_score: token-level F1.  `Counter(p) & Counter(g)` is multiset
intersection, and `sum(common.values())` is its cardinality. -/
def f1_score (prediction ground_truth : String) : ℚ :=
  let prediction_tokens := pySplit prediction
  let ground_truth_tokens := pySplit ground_truth
  let num_same :=
    Multiset.card ((prediction_tokens : Multiset String) ∩ (ground_truth_tokens : Multiset String))
  if num_same = 0 then 0
  else
    let precision : ℚ := num_same / prediction_tokens.length
    let recallScore : ℚ := num_same / ground_truth_tokens.length
    (2 * precision * recallScore) / (precision + recallScore)

/-- metrics.exact_match. -/
def exact_match (prediction ground_truth : String) : Bool :=
  prediction == ground_truth

/-- metrics.partial_exact_match (Lean name adjusted): fraction of aligned
positions whose tokens agree; Python divides by the length of the zipped
list and raises `ZeroDivisionError` when it is empty (`none` here). -/
def partialExactMatch (prediction ground_truth : String) : Option ℚ :=
  let p := pySplit prediction
  let g := pySplit ground_truth
  let is_correct_token := p.zip g
  if is_correct_token.length = 0 then none
  else some ((is_correct_token.countP (fun q => q.1 == q.2) : ℚ) / is_correct_token.length)

/-- metrics.metric_max_over_ground_truths: the scores for all ground truths
are computed first (any of them may raise), then `max` is taken; Python
`max` on an empty list raises (`none`). -/
def pyMax {α : Type} [Max α] : List α → Option α
  | [] => none
  | x :: xs => some (xs.foldl max x)

def metric_max_over_ground_truths {α : Type} [Max α]
    (metric_fn : String → String → Option α) (prediction : String)
    (ground_truths : List String) : Option α := do
  let scores_for_ground_truths ← ground_truths.mapM (fun g => metric_fn prediction g)
  pyMax scores_for_ground_truths

/-- metrics.computeEM. -/
def computeEM (outputs : List String) (targets : List (List String)) : Option ℚ := do
  let outs ← (outputs.zip targets).mapM
    (fun p => metric_max_over_ground_truths (fun a b => some (exact_match a b)) p.1 p.2)
  if outputs.isEmpty then none
  else
    some ((outs.foldl (fun acc b => acc + if b then 1 else 0) (0 : ℚ)) / outputs.length * 100)

/-- metrics.computeF1. -/
def computeF1 (outputs : List String) (targets : List (List String)) : Option ℚ := do
  let outs ← (outputs.zip targets).mapM
    (fun p => metric_max_over_ground_truths (fun a b => some (f1_score a b)) p.1 p.2)
  if outputs.isEmpty then none
  else some ((outs.foldl (· + ·) (0 : ℚ)) / outputs.length * 100)

/-- metrics.computePartialEM. -/
def computePartialEM (outputs : List String) (targets : List (List String)) : Option ℚ := do
  let outs ← (outputs.zip targets).mapM
    (fun p => metric_max_over_ground_truths partialExactMatch p.1 p.2)
  if outputs.isEmpty then none
  else some ((outs.foldl (· + ·) (0 : ℚ)) / outputs.length * 100)

/-- metrics.simplify: lower-cased, punctuation-stripped token set minus the
stop words (the Python source strips, lowers, splits, then removes
punctuation characters from each token and builds a set). -/
def simplify (answer : String) : Finset String :=
  ((pySplit (lowerS (pyStrip answer))).map
      (fun t => (⟨removePuncC t.data⟩ : String))).toFinset \ {"the", "a", "an", "and", ""}

/-- metrics.score: the `(tp, tn, sys_pos, real_pos)` vector of one example.
When `gold` is the empty list the Python code leaves `gold` a *list*, so the
set/list comparison `answer == gold` and the membership test on `gold` are
both false; that branch is inlined accordingly. -/
def score (answer : String) (gold : List String) : Nat × Nat × Nat × Nat :=
  let a := simplify answer
  let sys_pos : Nat := if ¬("unanswerable" ∈ a ∧ a.card = 1) then 1 else 0
  if 0 < gold.length then
    let g := (gold.map simplify).foldl (· ∪ ·) ∅
    let tp : Nat := if a = g ∧ ¬("unanswerable" ∈ g ∧ g.card = 1) then 1 else 0
    let tn : Nat := if a = g ∧ ("unanswerable" ∈ g ∧ g.card = 1) then 1 else 0
    let real_pos : Nat := if ¬("unanswerable" ∈ g ∧ g.card = 1) then 1 else 0
    (tp, tn, sys_pos, real_pos)
  else (0, 0, sys_pos, 1)

/-- metrics.computeCF1: corpus-level F1, precision and recall over the
summed score vectors. -/
def computeCF1 (greedy : List String) (answer : List (List String)) : ℚ × ℚ × ℚ :=
  let totals := (greedy.zip answer).foldl
    (fun acc p =>
      let s := score p.1 p.2
      (acc.1 + s.1, acc.2.1 + s.2.1, acc.2.2.1 + s.2.2.1, acc.2.2.2 + s.2.2.2))
    ((0, 0, 0, 0) : Nat × Nat × Nat × Nat)
  let tp := totals.1
  let sys_pos := totals.2.2.1
  let real_pos := totals.2.2.2
  if tp = 0 then (0, 0, 0)
  else
    let p : ℚ := tp / sys_pos
    let r : ℚ := tp / real_pos
    (2 * p * r / (p + r) * 100, p * 100, r * 100)

/-- A condition entry built by `to_lf`: `val` is `none` while the entry is
still the two-element list `[col, op]`, before (or in the absence of) the
value string appended by the odd-indexed parts. -/
structure LFCond where
  col : Int
  op : Int
  val : Option String
deriving DecidableEq

/-- The logical form returned by `to_lf`; `sel` may be Python `None`. -/
structure LF where
  sel : Option Nat
  conds : List LFCond
  agg : Nat
deriving DecidableEq

/-- A gold SQL condition `[column, operator, value]`; the value is modelled
as the string `str(...)` converts it to. -/
structure SqlCond where
  col : Int
  op : Int
  val : String
deriving DecidableEq

/-- A gold SQL query dict `{sel, agg, conds}`. -/
structure SqlQuery where
  sel : Nat
  agg : Nat
  conds : List SqlCond
deriving DecidableEq

/-- One ground-truth record consumed by computeLFEM: the text answer, the
table header list, and the gold SQL dict. -/
structure AnswerRec where
  answer : String
  table : List String
  sql : SqlQuery
deriving DecidableEq

/-- Lookup in a Python dict built by successive insertion: later duplicate
keys override earlier ones. -/
def dictLookup {α β : Type} [BEq α] (pairs : List (α × β)) (k : α) : Option β :=
  pairs.reverse.lookup k

/-- Stable insertion into a list sorted by strictly decreasing key; folding
the input left to right reproduces Python `sort(reverse=True, key=...)`. -/
def insDescBy {α : Type} (key : α → Nat) (acc : List α) (x : α) : List α :=
  match acc with
  | [] => [x]
  | y :: ys => if key y < key x then x :: y :: ys else y :: insDescBy key ys x

def sortDescBy {α : Type} (key : α → Nat) (l : List α) : List α :=
  l.foldl (insDescBy key) []

example : sortDescBy (fun s => String.length s) ["ab", "c", "def", "gh"]
    = ["def", "ab", "gh", "c"] := by decide

/-- Matcher for one occurrence of the regex `Col\d+ Cond\d+` anchored at the
head of `l`: the matched characters and the rest. -/
def matchColCond (l : List Char) : Option (List Char × List Char) :=
  if "Col".data.isPrefixOf l then
    let d1 := takeRun Char.isDigit (l.drop 3)
    if d1.1.isEmpty then none
    else if " Cond".data.isPrefixOf d1.2 then
      let d2 := takeRun Char.isDigit (d1.2.drop 5)
      if d2.1.isEmpty then none
      else some ("Col".data ++ d1.1 ++ " Cond".data ++ d2.1, d2.2)
    else none
  else none

/-- Fuel-driven scanner implementing `re.split('(Col\d+ Cond\d+)', s)`: the
parts alternate unmatched text and matched groups (empties included).  The
fuel bounds the length of the remaining text, so `reSplitColCond` never
exhausts it. -/
def reSplitGo : Nat → List Char → List Char → List (List Char)
  | 0, cur, l => [cur ++ l]
  | _ + 1, cur, [] => [cur]
  | fuel + 1, cur, c :: rest =>
    match matchColCond (c :: rest) with
    | some m => cur :: m.1 :: reSplitGo fuel [] m.2
    | none => reSplitGo fuel (cur ++ [c]) rest

def reSplitColCond (l : List Char) : List (List Char) := reSplitGo l.length [] l

example : (reSplitColCond "Col1 Cond0 x y Col2 Cond1 z".data).map List.asString
    = ["", "Col1 Cond0", " x y ", "Col2 Cond1", " z"] := by decide

/-- Value-string post-processing of an odd (text) part of `to_lf`'s condition
loop: drop a trailing `and` token, substitute `Col<i>` placeholders with the
original header names and `Cond<i>` placeholders with the operator names. -/
def condValText (conditionals : List String) (headers_unsorted : List (String × Nat))
    (x : List Char) : Option String := do
  let t1 := pySplit (⟨x⟩ : String)
  let t2 := if t1.getLast? == some "and" then t1.dropLast else t1
  let x1 := joinSpace t2
  let x2 ←
    if substrIn "Col" x1 then do
      let nt ← (pySplit x1).mapM (fun t =>
        if substrIn "Col" t then do
          let i ← pyInt (replaceAll t "Col" "").data
          let h ← pyIdx headers_unsorted i
          pure h.1
        else pure t)
      pure (joinSpace nt)
    else pure x1
  let x3 ←
    if substrIn "Cond" x2 then do
      let nt ← (pySplit x2).mapM (fun t =>
        if substrIn "Cond" t then do
          let i ← pyInt (replaceAll t "Cond" "").data
          let c ← pyIdx conditionals i
          pure c
        else pure t)
      pure (joinSpace nt)
    else pure x2
  pure x3

/-- The condition-building loop of `to_lf` over the filtered `re.split`
parts: even positions parse a `Col<i> Cond<j>` pair into `[col, op]`, odd
positions attach the value string to the most recent pair
(`full_conditions[-1].append(x)`; `none` models the `IndexError` and
`ValueError` paths). -/
def buildCondsGo (conditionals : List String) (headers_unsorted : List (String × Nat)) :
    Nat → List LFCond → List (List Char) → Option (List LFCond)
  | _, acc, [] => some acc
  | i, acc, x :: rest =>
    if i % 2 = 0 then do
      let toks := pySplit (⟨x⟩ : String)
      let t0 ← toks.get? 0
      let t1 ← toks.get? 1
      let col_num ← pyInt (replaceAll t0 "Col" "").data
      let opp_num ← pyInt (replaceAll t1 "Cond" "").data
      buildCondsGo conditionals headers_unsorted (i + 1)
        (acc ++ [{ col := col_num, op := opp_num, val := none }]) rest
    else do
      let v ← condValText conditionals headers_unsorted x
      match acc.getLast? with
      | none => none
      | some lastC =>
        buildCondsGo conditionals headers_unsorted (i + 1)
          (acc.dropLast ++ [{ lastC with val := some v }]) rest

/-- metrics.to_lf, parameterised by `Query.agg_ops` and `Query.cond_ops`
(the `Query` class lives in `tasks/generic_dataset.py`, outside the sources
under verification, so the two operator tables are arguments).  `none`
models any exception raised while parsing; computeLFEM's handler swallows
them all. -/
def to_lf (aggOps condOps : List String) (s0 : String) (table : List String) :
    Option LF := do
  let aggs := aggOps.map lowerS
  let aggDict := aggs.enum.map (fun p => (p.2, p.1))
  let conditionals := condOps.map lowerS
  let headers_unsorted := table.enum.map (fun p => (lowerS p.2, p.1))
  let headers := sortDescBy (fun h => h.1.length) headers_unsorted
  let (s1, condition_s) :=
    if substrIn "where" s0 then
      match splitOnce "where" s0 with
      | some pr => (pr.1, some pr.2)
      | none => (s0, none)
    else (s0, none)
  let toks := pySplit s1
  let s2 := joinSpace ((toks.drop 1).take (toks.length - 3))
  let selFirst := headers.foldl (fun acc h => if h.1 == s2 then some h.2 else acc) none
  let selAgg ←
    match selFirst with
    | some i => some ((some i : Option Nat), 0)
    | none => do
      let st := pySplit s2
      let t0 ← st.head?
      let a ← dictLookup aggDict t0
      let s4 := joinSpace (st.drop 1)
      some (headers.foldl (fun acc h => if h.1 == s4 then some h.2 else acc) none, a)
  let full_conditions ←
    match condition_s with
    | none => some []
    | some cs0 => do
      let cs1 : String := " " ++ cs0 ++ " "
      let cs2 := headers.foldl
        (fun acc h => replaceAll acc (" " ++ h.1 ++ " ") (" Col" ++ toString h.2 ++ " ")) cs1
      let cs3 := pyStrip cs2
      let cs4 := conditionals.enum.foldl
        (fun acc p => joinSpace ((pySplit acc).map
          (fun t => if t == p.2 then ("Cond" ++ toString p.1 : String) else t))) cs3
      let parts0 := reSplitColCond cs4.data
      let parts1 := if parts0.length = 0 then [cs4.data] else parts0
      let parts := parts1.filter (fun x => (stripC x).length > 0)
      buildCondsGo conditionals headers_unsorted 0 [] parts
  some { sel := selAgg.1, conds := full_conditions, agg := selAgg.2 }

/-- The in-place lower-casing of the gold SQL condition values performed by
computeLFEM (`lc[2] = str(lc[2]).lower()` mutates each condition list of
`ex['sql']` and the list of mutated conditions is written back to
`gt['conds']`). -/
def lowerSql (q : SqlQuery) : SqlQuery :=
  { q with conds := q.conds.map (fun c => { c with val := lowerS c.val }) }

/-- The post-state of a ground-truth record after computeLFEM has processed
it with a prediction that `to_lf` can parse. -/
def lowerSqlRec (ex : AnswerRec) : AnswerRec := { ex with sql := lowerSql ex.sql }

/-- Python structural equality between the logical-form dict and the gold
SQL dict: `sel` (possibly `None`) versus the gold column, the `agg` index,
and the condition lists (a two-element condition never equals a triple). -/
def pyLfEq (lf : LF) (gt : SqlQuery) : Bool :=
  lf.sel == some gt.sel && lf.agg == gt.agg &&
    lf.conds == gt.conds.map (fun c => ({ col := c.col, op := c.op, val := some c.val } : LFCond))

/-- One iteration of computeLFEM's loop body inside `try`: if `to_lf`
succeeds, the gold SQL is mutated (condition values lower-cased) and the
parse is compared against it; if it raises, the exception is swallowed and
the record is left untouched.  Returns (counts-as-correct?, record
post-state). -/
def lfemStep (aggOps condOps : List String) (g : String) (ex : AnswerRec) :
    Bool × AnswerRec :=
  match to_lf aggOps condOps g ex.table with
  | none => (false, ex)
  | some lf => (pyLfEq lf (lowerSql ex.sql), lowerSqlRec ex)

/-- Whether an example counts towards computeLFEM's numerator. -/
def lfemMatch (aggOps condOps : List String) (g : String) (ex : AnswerRec) : Bool :=
  (lfemStep aggOps condOps g ex).1

/-- computeLFEM's loop: returns (count, correct, text_answers, record
post-states). -/
def lfemGo (aggOps condOps : List String) :
    List (String × AnswerRec) → Nat × Nat × List (List String) × List AnswerRec
  | [] => (0, 0, [], [])
  | (g, ex) :: rest =>
    let st := lfemStep aggOps condOps g ex
    let r := lfemGo aggOps condOps rest
    (r.1 + 1, r.2.1 + (if st.1 then 1 else 0), [lowerS ex.answer] :: r.2.2.1, st.2 :: r.2.2.2)

/-- metrics.computeLFEM.  `answer` is the list of per-example ground-truth
lists; `x[0]` extracts each record (an empty inner list raises, hence the
`Option`).  Returns the score, the collected text answers, and the
post-state of the extracted records (computeLFEM mutates them in place). -/
def computeLFEM (aggOps condOps : List String) (greedy : List String)
    (answer : List (List AnswerRec)) :
    Option (ℚ × List (List String) × List AnswerRec) := do
  let heads ← answer.mapM List.head?
  let zipped := greedy.zip heads
  let r := lfemGo aggOps condOps zipped
  if r.1 = 0 then none
  else some ((r.2.1 : ℚ) / r.1 * 100, r.2.2.1, r.2.2.2 ++ heads.drop zipped.length)

/-- Scores delegated by compute_metrics to external libraries (sacrebleu,
pyrouge, seqeval, HuggingFace `datasets`, `requote_program` from util.py) or
to answer shapes outside the plain string-list type (computeLFEM on records,
computeDialogue on dialogue-id pairs).  Each is modelled as an opaque total
function of the prediction list and the current answer list; `lfemF` and
`dialogueF` also return the replacement answer list, as in the source. -/
structure MetricEnv where
  lfemF : List String → List (List String) → ℚ × List (List String)
  dialogueF : List String → List (List String) → ℚ × ℚ × ℚ × List (List String)
  smF : List String → List (List String) → ℚ
  terF : List String → List (List String) → ℚ
  bertscoreF : List String → List (List String) → String → ℚ
  casedbleuF : List String → List (List String) → ℚ
  bleuF : List String → List (List String) → ℚ
  t5bleuF : List String → List (List String) → ℚ
  nmtbleuF : List String → List (List String) → ℚ
  rougeF : List String → List (List String) → ℚ × ℚ × ℚ
  scPrecisionF : List String → List (List String) → ℚ
  scRecallF : List String → List (List String) → ℚ
  scF1F : List String → List (List String) → ℚ
  nerF1IOB1F : List String → List (List String) → ℚ
  nerF1F : List String → List (List String) → ℚ

/-- One conditional block of compute_metrics: when `cond` holds, compute the
values (which may raise) and append the keys and values to the accumulated
`metric_keys` / `metric_values` pair. -/
def addMetric (cond : Bool) (ks : List String) (vals : Option (List ℚ))
    (st : List String × List ℚ) : Option (List String × List ℚ) :=
  if cond then do
    let vs ← vals
    pure (st.1 ++ ks, st.2 ++ vs)
  else pure st

/-- The blocks of compute_metrics that follow the unconditional `em`
computation, in source order.  `normG`/`normA` are the pre-computed
normalized prediction and answer lists used by `nf1`, `nem` and
`corpus_f1`. -/
def branchSpecs (env : MetricEnv) (greedy : List String) (ans : List (List String))
    (normG : List String) (normA : List (List String))
    (requested_metrics : List String) (lang : String) :
    List (Bool × List String × Option (List ℚ)) :=
  [("pem" ∈ requested_metrics, ["pem"],
      (computePartialEM greedy ans).map (fun v => [v])),
   ("sm" ∈ requested_metrics, ["sm"], some [env.smF greedy ans]),
   ("ter" ∈ requested_metrics, ["ter"], some [env.terF greedy ans]),
   ("bertscore" ∈ requested_metrics, ["bertscore"], some [env.bertscoreF greedy ans lang]),
   ("casedbleu" ∈ requested_metrics, ["casedbleu"], some [env.casedbleuF greedy ans]),
   ("bleu" ∈ requested_metrics, ["bleu"], some [env.bleuF greedy ans]),
   ("t5_bleu" ∈ requested_metrics, ["t5_bleu"], some [env.t5bleuF greedy ans]),
   ("nmt_bleu" ∈ requested_metrics, ["nmt_bleu"], some [env.nmtbleuF greedy ans]),
   ("avg_rouge" ∈ requested_metrics, ["rouge1", "rouge2", "rougeL", "avg_rouge"],
      some [(env.rougeF greedy ans).1, (env.rougeF greedy ans).2.1,
            (env.rougeF greedy ans).2.2,
            ((env.rougeF greedy ans).1 + (env.rougeF greedy ans).2.1
              + (env.rougeF greedy ans).2.2) / 3]),
   ("sc_precision" ∈ requested_metrics, ["sc_precision"], some [env.scPrecisionF greedy ans]),
   ("sc_recall" ∈ requested_metrics, ["sc_recall"], some [env.scRecallF greedy ans]),
   ("sc_f1" ∈ requested_metrics, ["sc_f1"], some [env.scF1F greedy ans]),
   ("f1" ∈ requested_metrics, ["f1"], (computeF1 greedy ans).map (fun v => [v])),
   ("ner_f1_IOB1" ∈ requested_metrics, ["ner_f1_IOB1"], some [env.nerF1IOB1F greedy ans]),
   ("ner_f1" ∈ requested_metrics, ["ner_f1"], some [env.nerF1F greedy ans]),
   ("nf1" ∈ requested_metrics, ["nf1"], (computeF1 normG normA).map (fun v => [v])),
   ("nem" ∈ requested_metrics, ["nem"], (computeEM normG normA).map (fun v => [v])),
   ("corpus_f1" ∈ requested_metrics, ["corpus_f1", "precision", "recall"],
      some [(computeCF1 normG normA).1, (computeCF1 normG normA).2.1,
            (computeCF1 normG normA).2.2])]

/-- The `metric_keys` / `metric_values` accumulation of compute_metrics
(source order: lfem, the dialogue block, the unconditional `em`, then the
remaining blocks), together with the final value of the (possibly replaced)
`answer` variable.  The `answer[0]` probe of the isinstance check raises on
an empty answer list. -/
def metricAccum (env : MetricEnv) (greedy : List String)
    (answer : List (List String)) (requested_metrics : List String)
    (lang : String) : Option (List String × List ℚ × List (List String)) := do
  if answer.isEmpty then none
  else
    let st1 :=
      if "lfem" ∈ requested_metrics then
        let r := env.lfemF greedy answer
        ((["lfem"], [r.1]), r.2)
      else (([], []), answer)
    let st2 :=
      if "joint_goal_em" ∈ requested_metrics then
        let r := env.dialogueF greedy st1.2
        ((st1.1.1 ++ ["joint_goal_em", "turn_request_em", "turn_goal_em", "avg_dialogue"],
          st1.1.2 ++ [r.1, r.2.1, r.2.2.1, (r.1 + r.2.1) / 2]), r.2.2.2)
      else st1
    let ans := st2.2
    let em ← computeEM greedy ans
    let st0 := (st2.1.1 ++ ["em"], st2.1.2 ++ [em])
    let normG := greedy.map normalize_text
    let normA := ans.map (fun al => al.map normalize_text)
    let stF ← (branchSpecs env greedy ans normG normA requested_metrics lang).foldlM
      (fun st b => addMetric b.1 b.2.1 b.2.2 st) st0
    pure (stF.1, stF.2, ans)

/-- metrics.compute_metrics: the final ordered dict maps each requested
metric name (first occurrences, in request order) to its entry in
`dict(zip(metric_keys, metric_values))`; a requested name that was never
computed raises `KeyError` (`none`). -/
def compute_metrics (env : MetricEnv) (greedy : List String)
    (answer : List (List String)) (requested_metrics : List String)
    (lang : String) : Option (List (String × ℚ) × List (List String)) := do
  let acc ← metricAccum env greedy answer requested_metrics lang
  let metric_dict := acc.1.zip acc.2.1
  let d ← (firstDedup requested_metrics).mapM
    (fun k => (metric_dict.lookup k).map (fun v => (k, v)))
  pure (d, acc.2.2)

/-- Python slice assignment `l[b:e] = xs` for natural indices. -/
def pySetSlice {α : Type} (l : List α) (b e : Nat) (xs : List α) : List α :=
  l.take b ++ xs ++ l.drop (max b e)

example : pySetSlice [1, 2, 3, 4] 1 3 [9, 9] = [1, 9, 9, 4] := by decide

namespace NED

/-- State of a `BaseEntityDisambiguator` as consumed by its lookup methods.
`all_aliases` is the marisa trie, modelled extensionally by its key list
(the library is external; its enumeration order is unspecified).
`is_banned` and `normalize` come from `ned/ned_utils.py`, which is not among
the sources under verification, and `pos_tag` models `nltk.pos_tag`; all
three are opaque parameters of the state. -/
structure EDState where
  unk_id : Nat
  max_features_size : Nat
  typeqid2id : List (String × Nat)
  alias2type : List (String × String)
  all_aliases : List String
  is_banned : String → Bool
  normalize : String → String
  pos_tag : List String → List (String × String)

/-- Modelled from the spec: `has_overlap` from `ned/ned_utils.py` is not
among the sources under verification; per the spec, an n-gram is skipped
when its token span overlaps a previously recorded match, so two half-open
token spans `[s1, e1)` and `[s2, e2)` overlap when each starts before the
other ends. -/
def spansOverlap (s1 e1 s2 e2 : Nat) : Bool := s1 < e2 && s2 < e1

/-- `has_overlap(start, end, used_aliases)` over the recorded
`[type_id, start, end]` triples. -/
def hasOverlapB (s e : Nat) (used : List (Nat × Nat × Nat)) : Bool :=
  used.any (fun u => spansOverlap s e u.2.1 u.2.2)

/-- The candidate starting positions of the `nltk.ngrams(tokens, n)` loop
(`n = 0` yields no n-grams). -/
def ngramStarts (numToks n : Nat) : List Nat :=
  if n = 0 then [] else List.range (numToks + 1 - n)

/-- One n-gram candidate of lookup_ngrams: the span is recorded when the
normalized text is not banned, not a verb and is an alias in the trie, and
no previously recorded span overlaps it.  `self.alias2type[gram_text]` is a
direct dict indexing (`none` on a missing key); the type id falls back to
`unk_id` through `.get`. -/
def processCand (st : EDState) (verbs : List String) (tokens : List String)
    (n s : Nat) (used : List (Nat × Nat × Nat)) : Option (List (Nat × Nat × Nat)) :=
  let gram_text := st.normalize (joinSpace ((tokens.drop s).take n))
  if !st.is_banned gram_text && !verbs.contains gram_text
      && st.all_aliases.contains gram_text then
    if hasOverlapB s (s + n) used then some used
    else do
      let ty ← dictLookup st.alias2type gram_text
      pure (used ++ [((dictLookup st.typeqid2id ty).getD st.unk_id, s, s + n)])
  else some used

/-- Python `s.startswith(pre)`. -/
def pyStartsWith (pre s : String) : Bool := pre.data.isPrefixOf s.data

/-- `verbs`: the tokens whose POS tag starts with `V`. -/
def verbTokens (st : EDState) (tokens : List String) : List String :=
  ((st.pos_tag tokens).filter (fun p => pyStartsWith "V" p.2)).map Prod.fst

/-- The `used_aliases` accumulation of lookup_ngrams: n-gram lengths run
from the clamped `max_entity_len` down to the clamped `min_entity_len`. -/
def ngramUsed (st : EDState) (tokens : List String)
    (min_entity_len max_entity_len : Nat) : Option (List (Nat × Nat × Nat)) :=
  let maxE := min max_entity_len tokens.length
  let minE := min min_entity_len tokens.length
  let verbs := verbTokens st tokens
  (descRange maxE minE).foldlM
    (fun used n => (ngramStarts tokens.length n).foldlM
      (fun used s => processCand st verbs tokens n s used) used) []

/-- BaseEntityDisambiguator.lookup_ngrams: every token starts as a
`max_features_size`-wide unknown row, then each recorded span overwrites its
token range by slice assignment. -/
def lookup_ngrams (st : EDState) (tokens : List String)
    (min_entity_len max_entity_len : Nat) : Option (List (List Nat)) := do
  let used ← ngramUsed st tokens min_entity_len max_entity_len
  pure (used.foldl
    (fun tti u =>
      pySetSlice tti u.2.1 u.2.2
        (List.replicate (u.2.2 - u.2.1) (List.replicate st.max_features_size u.1)))
    (List.replicate tokens.length (List.replicate st.max_features_size st.unk_id)))

/-- `self.all_aliases.keys(token)` followed by the length sort: the trie
keys having `token` as a string prefix, longest first (Python's stable
sort). -/
def matchedItems (st : EDState) (token : String) : List String :=
  sortDescBy String.length (st.all_aliases.filter (fun k => token.data.isPrefixOf k.data))

/-- The inner `for key in matched_items` loop of lookup_smaller:
`alias2type[key]` is indexed before the token-by-token comparison (so a key
missing from the dict raises even when it would not match), a fully matched
key that is banned is skipped, and the first surviving key is returned with
its type. -/
def smFind (st : EDState) (tokens : List String) (i : Nat) :
    List String → Option (Option (String × String))
  | [] => some none
  | k :: rest => do
    let ty ← dictLookup st.alias2type k
    if (pySplit k).isPrefixOf (tokens.drop i)
        && !st.is_banned (joinSpace (pySplit k)) then
      pure (some (k, ty))
    else smFind st tokens i rest

/-- Fuel-driven while-loop of lookup_smaller.  The per-token entry is the
singleton list `[typeqid2id[type] * max_features_size]`, exactly as in the
source.  The fuel is the number of input tokens; an alias whose `split()` is
empty would make the Python loop spin forever, and that path surfaces as
`none` when the fuel runs out. -/
def smGo (st : EDState) (tokens : List String) :
    Nat → Nat → List (List Nat) → Option (List (List Nat))
  | 0, i, acc => if i < tokens.length then none else some acc
  | fuel + 1, i, acc =>
    if i < tokens.length then do
      let found ← smFind st tokens i (matchedItems st (tokens.getD i ""))
      match found with
      | some kt => do
        let id0 ← dictLookup st.typeqid2id kt.2
        smGo st tokens fuel (i + (pySplit kt.1).length)
          (acc ++ List.replicate (pySplit kt.1).length [id0 * st.max_features_size])
      | none => smGo st tokens fuel (i + 1) (acc ++ [[st.unk_id * st.max_features_size]])
    else some acc

/-- BaseEntityDisambiguator.lookup_smaller. -/
def lookup_smaller (st : EDState) (tokens : List String) : Option (List (List Nat)) :=
  smGo st tokens tokens.length 0 []

/-- Fuel-driven while-loop of lookup_longer: for each position the inner
loop tries the spans `tokens[i:end]` for `end` from the full length down to
`i + 1` and takes the first one that is an alias; the per-token entry is
again the singleton `[typeqid2id[alias2type[s]] * max_features_size]`. -/
def lgGo (st : EDState) (tokens : List String) :
    Nat → Nat → List (List Nat) → Option (List (List Nat))
  | 0, i, acc => if i < tokens.length then none else some acc
  | fuel + 1, i, acc =>
    if i < tokens.length then
      match (descRange tokens.length (i + 1)).find?
          (fun e => st.all_aliases.contains (joinSpace ((tokens.drop i).take (e - i)))) with
      | some e => do
        let ty ← dictLookup st.alias2type (joinSpace ((tokens.drop i).take (e - i)))
        let id0 ← dictLookup st.typeqid2id ty
        lgGo st tokens fuel e (acc ++ List.replicate (e - i) [id0 * st.max_features_size])
      | none => lgGo st tokens fuel (i + 1) (acc ++ [[st.unk_id * st.max_features_size]])
    else some acc

/-- BaseEntityDisambiguator.lookup_longer. -/
def lookup_longer (st : EDState) (tokens : List String) : Option (List (List Nat)) :=
  lgGo st tokens tokens.length 0 []

/-- BaseEntityDisambiguator.lookup: dispatch on `database_lookup_method`
(default `None`); any unrecognized value falls through to the all-unknown
default built before the dispatch. -/
def lookup (st : EDState) (tokens : List String) (database_lookup_method : Option String)
    (min_entity_len max_entity_len : Nat) : Option (List (List Nat)) :=
  if database_lookup_method == some "smaller_first" then lookup_smaller st tokens
  else if database_lookup_method == some "longer_first" then lookup_longer st tokens
  else if database_lookup_method == some "ngrams" then
    lookup_ngrams st tokens min_entity_len max_entity_len
  else some (List.replicate tokens.length (List.replicate st.max_features_size st.unk_id))

/-- Modelled from the spec: `marisa_trie.Trie` is an external library; the
spec glossary describes it as a compressed prefix-tree used for fast alias
membership lookup.  `CTrie` is that prefix tree: a node stores whether the
path spelling it is a stored key, and its children are indexed by
character. -/
inductive CTrie : Type
  | node : Bool → (Char → Option CTrie) → CTrie

def CTrie.empty : CTrie := .node false (fun _ => none)

def CTrie.insertChars : CTrie → List Char → CTrie
  | .node _ ch, [] => .node true ch
  | .node b ch, c :: rest =>
    .node b (fun c' => if c' = c
      then some (CTrie.insertChars ((ch c).getD CTrie.empty) rest)
      else ch c')

def CTrie.memChars : CTrie → List Char → Bool
  | .node b _, [] => b
  | .node _ ch, c :: rest =>
    match ch c with
    | none => false
    | some t => CTrie.memChars t rest

/-- `marisa_trie.Trie(keys)`. -/
def buildTrie (keys : List String) : CTrie :=
  keys.foldl (fun t k => CTrie.insertChars t k.data) CTrie.empty

/-- The `in` membership test on the trie. -/
def CTrie.memS (t : CTrie) (s : String) : Bool := t.memChars s.data

/-- The `all_aliases = marisa_trie.Trie(self.alias2type.keys())` construction
shared by the `NaiveEntityDisambiguator` and `EntityOracleEntityDisambiguator`
constructors; `alias2type` is the loaded JSON dict as a key/value list. -/
def naiveAllAliases (alias2type : List (String × String)) : CTrie :=
  buildTrie (alias2type.map Prod.fst)

end NED

example : (NED.buildTrie ["ab", "a", "cd"]).memS "a" = true := by decide
example : (NED.buildTrie ["ab", "a", "cd"]).memS "c" = false := by decide
example : (NED.buildTrie ["ab", "a", "cd"]).memS "cd" = true := by decide

theorem foldlM_option_inv {α β : Type} (P : β → Prop) {f : β → α → Option β} :
    ∀ {xs : List α} {a b : β},
      (∀ y x z, x ∈ xs → P y → f y x = some z → P z) →
      List.foldlM f a xs = some b → P a → P b := by
  intro xs
  induction xs with
  | nil =>
    intro a b _ h hP
    simp only [List.foldlM_nil] at h
    cases h
    exact hP
  | cons x xs ih =>
    intro a b hstep h hP
    rw [List.foldlM_cons] at h
    rcases Option.bind_eq_some.mp h with ⟨a', ha', hrest⟩
    exact ih (fun y u z hu => hstep y u z (List.mem_cons_of_mem _ hu))
      hrest (hstep a x a' (List.mem_cons_self _ _) hP ha')

theorem mapM_lookup_spec {md : List (String × ℚ)} :
    ∀ {ks : List String} {d : List (String × ℚ)},
      ks.mapM (fun k => (md.lookup k).map (fun v => (k, v))) = some d →
      d.map Prod.fst = ks ∧ ∀ p ∈ d, md.lookup p.1 = some p.2 := by
  intro ks
  induction ks with
  | nil =>
    intro d h
    simp only [List.mapM_nil] at h
    cases h
    simp
  | cons k ks ih =>
    intro d h
    rw [List.mapM_cons] at h
    rcases Option.bind_eq_some.mp h with ⟨p, hp, h2⟩
    rcases Option.bind_eq_some.mp h2 with ⟨rest, hrest, h3⟩
    cases h3
    rcases Option.map_eq_some'.mp hp with ⟨v, hv, hpv⟩
    rcases ih hrest with ⟨ih1, ih2⟩
    subst hpv
    refine ⟨by simp [ih1], ?_⟩
    intro q hq
    rcases List.mem_cons.mp hq with h | h
    · subst h; exact hv
    · exact ih2 q h

theorem firstDedup_aux (l : List String) :
    ∀ acc, l.Nodup → (∀ x ∈ l, x ∉ acc) →
      l.foldl (fun acc k => if k ∈ acc then acc else acc ++ [k]) acc = acc ++ l := by
  induction l with
  | nil => intro acc _ _; simp
  | cons x xs ih =>
    intro acc hnd hdisj
    rw [List.foldl_cons, if_neg (hdisj x (List.mem_cons_self _ _))]
    rw [ih (acc ++ [x]) (List.nodup_cons.mp hnd).2 ?_]
    · simp
    · intro y hy
      simp only [List.mem_append, List.mem_singleton]
      rintro (h | h)
      · exact hdisj y (List.mem_cons_of_mem _ hy) h
      · exact (List.nodup_cons.mp hnd).1 (h ▸ hy)

theorem firstDedup_eq_self {l : List String} (h : l.Nodup) : firstDedup l = l := by
  have := firstDedup_aux l [] h (by simp)
  simpa [firstDedup] using this

theorem addMetric_mem {c : Bool} {ks : List String} {vals : Option (List ℚ)}
    {st st' : List String × List ℚ} {k : String}
    (h : addMetric c ks vals st = some st') (hk : k ∈ st.1) : k ∈ st'.1 := by
  unfold addMetric at h
  split at h
  · rcases Option.bind_eq_some.mp h with ⟨vs, _, h2⟩
    cases h2
    exact List.mem_append_left _ hk
  · cases h
    exact hk

theorem metricAccum_em {env : MetricEnv} {greedy : List String}
    {answer : List (List String)} {req : List String} {lang : String}
    {ks : List String} {vs : List ℚ} {ansA : List (List String)}
    (h : metricAccum env greedy answer req lang = some (ks, vs, ansA)) :
    "em" ∈ ks := by
  unfold metricAccum at h
  split at h
  · cases h
  · rcases Option.bind_eq_some.mp h with ⟨em, _, h2⟩
    rcases Option.bind_eq_some.mp h2 with ⟨stF, hfold, h3⟩
    cases h3
    exact foldlM_option_inv (fun st => "em" ∈ st.1)
      (fun y u z _ hy hz => addMetric_mem hz hy) hfold (by simp)

/-- C1: whenever compute_metrics returns (its `answer[0]` probe, the metric
computations and the final `KeyError`-prone dict comprehension all succeed)
on a duplicate-free request list, the returned ordered dict has exactly the
names of `requested_metrics` as keys, in request order, each mapped to the
value recorded for that metric in the internal `metric_keys`/`metric_values`
zip; metrics that were computed but not requested (in particular the
unconditionally computed `em`) do not appear. -/
theorem compute_metrics_requested_keys (env : MetricEnv) (greedy : List String)
    (answer : List (List String)) (requested_metrics : List String) (lang : String)
    (d : List (String × ℚ)) (ansF : List (List String))
    (hnd : requested_metrics.Nodup)
    (h : compute_metrics env greedy answer requested_metrics lang = some (d, ansF)) :
    d.map Prod.fst = requested_metrics ∧
      ∃ ks vs ansA,
        metricAccum env greedy answer requested_metrics lang = some (ks, vs, ansA) ∧
        "em" ∈ ks ∧ (∀ p ∈ d, (ks.zip vs).lookup p.1 = some p.2) := by
  unfold compute_metrics at h
  rcases Option.bind_eq_some.mp h with ⟨acc, hacc, h2⟩
  rcases Option.bind_eq_some.mp h2 with ⟨d', hd', h3⟩
  cases h3
  rw [firstDedup_eq_self hnd] at hd'
  rcases mapM_lookup_spec hd' with ⟨hkeys, hvals⟩
  exact ⟨hkeys, acc.1, acc.2.1, acc.2.2, hacc, metricAccum_em (by simpa using hacc), hvals⟩

/-- A trivial metric environment over which theorems are instantiated at
concrete inputs. -/
def envZero : MetricEnv :=
  { lfemF := fun _ a => (0, a), dialogueF := fun _ a => (0, 0, 0, a),
    smF := fun _ _ => 0, terF := fun _ _ => 0, bertscoreF := fun _ _ _ => 0,
    casedbleuF := fun _ _ => 0, bleuF := fun _ _ => 0, t5bleuF := fun _ _ => 0,
    nmtbleuF := fun _ _ => 0, rougeF := fun _ _ => (0, 0, 0),
    scPrecisionF := fun _ _ => 0, scRecallF := fun _ _ => 0, scF1F := fun _ _ => 0,
    nerF1IOB1F := fun _ _ => 0, nerF1F := fun _ _ => 0 }

/-- C1, witness: requesting `["nem", "em"]` on one example yields exactly the
two requested keys in request order. -/
theorem compute_metrics_requested_keys_witness :
    [("nem", (100 : ℚ)), ("em", 100)].map Prod.fst = ["nem", "em"] ∧
      ∃ ks vs ansA,
        metricAccum envZero ["a b"] [["a b"]] ["nem", "em"] "en" = some (ks, vs, ansA) ∧
        "em" ∈ ks ∧ (∀ p ∈ [("nem", (100 : ℚ)), ("em", 100)],
          (ks.zip vs).lookup p.1 = some p.2) :=
  compute_metrics_requested_keys envZero ["a b"] [["a b"]] ["nem", "em"] "en"
    [("nem", 100), ("em", 100)] [["a b"]] (by decide)
    (by simp +decide [compute_metrics, metricAccum, branchSpecs, addMetric, computeEM,
      computeF1, metric_max_over_ground_truths, exact_match, firstDedup, envZero,
      List.lookup, pyMax, normalize_text, whiteSpaceFixC, removeArticlesC, removePuncC,
      segs, segChar, lowerChar, upperLower, wsTokensC, wsTokensRaw, addTok, isWs, wsChars,
      joinSpaceC, articleRuns, punctChars, List.mapM.loop])

theorem mapM_of_forall_some {α β : Type} {f : α → Option β} (g : α → β) :
    ∀ {l : List α}, (∀ x ∈ l, f x = some (g x)) → l.mapM f = some (l.map g) := by
  intro l
  induction l with
  | nil => intro _; rfl
  | cons x xs ih =>
    intro h
    rw [List.mapM_cons, h x (List.mem_cons_self _ _),
      ih (fun y hy => h y (List.mem_cons_of_mem _ hy))]
    rfl

theorem bool_max_eq_or (a b : Bool) : max a b = (a || b) := by
  cases a <;> cases b <;> rfl

theorem foldl_max_bool (xs : List Bool) : ∀ b : Bool, xs.foldl max b = (b || xs.any id) := by
  induction xs with
  | nil => intro b; simp
  | cons x xs ih =>
    intro b
    rw [List.foldl_cons, ih (max b x), bool_max_eq_or]
    simp [Bool.or_assoc]

theorem any_map_id {α : Type} (f : α → Bool) :
    ∀ l : List α, (l.map f).any id = l.any f := by
  intro l
  induction l with
  | nil => rfl
  | cons x xs ih => simp [List.any_cons, ih]

/-- `metric_max_over_ground_truths exact_match` is the check that the
prediction equals at least one ground truth. -/
theorem mmogt_exact_match (p : String) {gts : List String} (h : gts ≠ []) :
    metric_max_over_ground_truths (fun a b => some (exact_match a b)) p gts
      = some (gts.any (fun t => p == t)) := by
  unfold metric_max_over_ground_truths
  rw [mapM_of_forall_some (fun g => exact_match p g) (fun x _ => rfl)]
  cases gts with
  | nil => cases h rfl
  | cons g gs =>
    simp only [List.map_cons, Option.pure_def, Option.bind_eq_bind, Option.some_bind]
    show pyMax (exact_match p g :: gs.map (fun b => exact_match p b))
      = some ((g :: gs).any fun t => p == t)
    rw [pyMax, foldl_max_bool]
    simp [exact_match, any_map_id]

theorem foldl_add_boolCount (bs : List Bool) :
    ∀ c : ℚ, bs.foldl (fun acc b => acc + if b then 1 else 0) c = c + (bs.countP id : ℚ) := by
  induction bs with
  | nil => intro c; simp
  | cons b bs ih =>
    intro c
    rw [List.foldl_cons, ih, List.countP_cons]
    push_cast
    cases b <;> simp <;> ring

/-- C2: computeEM returns 100 times the fraction of predictions that are
string-equal to at least one of their ground truths. -/
theorem computeEM_exact_match_fraction (outputs : List String)
    (targets : List (List String)) (h1 : outputs ≠ [])
    (h2 : outputs.length = targets.length) (h3 : ∀ t ∈ targets, t ≠ []) :
    computeEM outputs targets
      = some (100 * ((outputs.zip targets).countP (fun p => p.2.any (fun t => p.1 == t)) : ℚ)
          / outputs.length) := by
  unfold computeEM
  rw [mapM_of_forall_some (fun p => p.2.any (fun t => p.1 == t))
    (fun p hp => mmogt_exact_match p.1 (h3 p.2 (List.of_mem_zip hp).2))]
  simp only [Option.pure_def, Option.bind_eq_bind, Option.some_bind]
  rw [if_neg (by simpa [List.isEmpty_iff] using h1)]
  rw [foldl_add_boolCount, List.countP_map]
  congr 1
  rw [zero_add]
  have : ((fun b => id b) ∘ fun p : String × List String => p.2.any fun t => p.1 == t)
      = fun p : String × List String => p.2.any fun t => p.1 == t := rfl
  rw [this]
  ring

/-- C2, witness: one of the two predictions matches a ground truth, so the
score is 50. -/
theorem computeEM_exact_match_fraction_witness :
    computeEM ["x", "y"] [["x", "z"], ["w"]] = some 50 := by
  have h := computeEM_exact_match_fraction ["x", "y"] [["x", "z"], ["w"]]
    (by decide) (by decide) (by decide)
  rw [h]
  have hc : List.countP (fun p : String × List String => p.2.any fun t => p.1 == t)
      (["x", "y"].zip [["x", "z"], ["w"]]) = 1 := by decide
  rw [hc]
  norm_num

/-- C6: f1_score splits both strings on whitespace; it returns 0 when the
two token multisets share no tokens, and otherwise the harmonic mean
`2*p*r/(p+r)` where `p` is the shared-token count (with multiplicity) over
the prediction length and `r` the same count over the ground-truth length;
the result always lies in [0, 1]. -/
theorem f1_score_formula_and_bounds (prediction ground_truth : String) :
    (f1_score prediction ground_truth =
      (if Multiset.card ((pySplit prediction : Multiset String)
            ∩ (pySplit ground_truth : Multiset String)) = 0 then 0
       else
        let ns : ℚ := Multiset.card ((pySplit prediction : Multiset String)
            ∩ (pySplit ground_truth : Multiset String))
        2 * (ns / (pySplit prediction).length) * (ns / (pySplit ground_truth).length)
          / (ns / (pySplit prediction).length + ns / (pySplit ground_truth).length))) ∧
    0 ≤ f1_score prediction ground_truth ∧ f1_score prediction ground_truth ≤ 1 := by
  have hcard1 : Multiset.card ((pySplit prediction : Multiset String)
      ∩ (pySplit ground_truth : Multiset String)) ≤ (pySplit prediction).length := by
    simpa using Multiset.card_le_card (Multiset.inter_le_left
      (pySplit prediction : Multiset String) (pySplit ground_truth : Multiset String))
  have hcard2 : Multiset.card ((pySplit prediction : Multiset String)
      ∩ (pySplit ground_truth : Multiset String)) ≤ (pySplit ground_truth).length := by
    simpa using Multiset.card_le_card (Multiset.inter_le_right
      (pySplit prediction : Multiset String) (pySplit ground_truth : Multiset String))
  refine ⟨rfl, ?_⟩
  simp only [f1_score]
  by_cases h : Multiset.card ((pySplit prediction : Multiset String)
      ∩ (pySplit ground_truth : Multiset String)) = 0
  · rw [if_pos h]
    norm_num
  · rw [if_neg h]
    have hns1 : 1 ≤ Multiset.card ((pySplit prediction : Multiset String)
        ∩ (pySplit ground_truth : Multiset String)) := Nat.one_le_iff_ne_zero.mpr h
    have hl1 : 0 < ((pySplit prediction).length : ℚ) := by
      exact_mod_cast Nat.lt_of_lt_of_le (Nat.lt_of_lt_of_le Nat.zero_lt_one hns1) hcard1
    have hl2 : 0 < ((pySplit ground_truth).length : ℚ) := by
      exact_mod_cast Nat.lt_of_lt_of_le (Nat.lt_of_lt_of_le Nat.zero_lt_one hns1) hcard2
    have hnq : (0 : ℚ) < (Multiset.card ((pySplit prediction : Multiset String)
        ∩ (pySplit ground_truth : Multiset String)) : ℚ) := by exact_mod_cast hns1
    have hp : (0 : ℚ) < (Multiset.card ((pySplit prediction : Multiset String)
        ∩ (pySplit ground_truth : Multiset String)) : ℚ) / (pySplit prediction).length :=
      div_pos hnq hl1
    have hr : (0 : ℚ) < (Multiset.card ((pySplit prediction : Multiset String)
        ∩ (pySplit ground_truth : Multiset String)) : ℚ) / (pySplit ground_truth).length :=
      div_pos hnq hl2
    have hple : (Multiset.card ((pySplit prediction : Multiset String)
        ∩ (pySplit ground_truth : Multiset String)) : ℚ) / (pySplit prediction).length ≤ 1 :=
      (div_le_one hl1).mpr (by exact_mod_cast hcard1)
    have hrle : (Multiset.card ((pySplit prediction : Multiset String)
        ∩ (pySplit ground_truth : Multiset String)) : ℚ) / (pySplit ground_truth).length ≤ 1 :=
      (div_le_one hl2).mpr (by exact_mod_cast hcard2)
    constructor
    · positivity
    · rw [div_le_one (by positivity)]
      nlinarith [mul_nonneg (sub_nonneg.mpr hple) hr.le,
        mul_nonneg (sub_nonneg.mpr hrle) hp.le]

theorem mapM_some_length {α β : Type} {f : α → Option β} :
    ∀ {l : List α} {l' : List β}, l.mapM f = some l' → l'.length = l.length := by
  intro l
  induction l with
  | nil =>
    intro l' h
    simp only [List.mapM_nil] at h
    cases h
    rfl
  | cons x xs ih =>
    intro l' h
    rw [List.mapM_cons] at h
    rcases Option.bind_eq_some.mp h with ⟨y, _, h2⟩
    rcases Option.bind_eq_some.mp h2 with ⟨ys, hys, h3⟩
    cases h3
    simp [ih hys]

theorem lfemGo_spec (aggOps condOps : List String) :
    ∀ z : List (String × AnswerRec),
      (lfemGo aggOps condOps z).1 = z.length ∧
      (lfemGo aggOps condOps z).2.1
        = z.countP (fun p => lfemMatch aggOps condOps p.1 p.2) ∧
      (lfemGo aggOps condOps z).2.2.1 = z.map (fun p => [lowerS p.2.answer]) ∧
      (lfemGo aggOps condOps z).2.2.2
        = z.map (fun p => (lfemStep aggOps condOps p.1 p.2).2) := by
  intro z
  induction z with
  | nil => exact ⟨rfl, rfl, rfl, rfl⟩
  | cons p z ih =>
    obtain ⟨p1, p2⟩ := p
    simp only [lfemGo, List.length_cons, List.countP_cons, List.map_cons]
    refine ⟨by rw [ih.1], ?_, by rw [ih.2.2.1], by rw [ih.2.2.2]⟩
    rw [ih.2.1, lfemMatch]

/-- C3: on a non-empty prediction list whose length matches the answer list,
with every inner ground-truth list non-empty (`hh` names the extracted
records), computeLFEM returns without raising; every example contributes one
to the denominator, an example whose prediction `to_lf` cannot parse
contributes zero to the numerator (its exception is swallowed), and the
score is 100 times the number of examples whose parsed logical form equals
the gold SQL with lower-cased condition values, divided by the number of
examples. -/
theorem computeLFEM_total_score (aggOps condOps : List String)
    (greedy : List String) (answer : List (List AnswerRec)) (hs : List AnswerRec)
    (h1 : greedy ≠ []) (h2 : greedy.length = answer.length)
    (hh : answer.mapM List.head? = some hs) :
    computeLFEM aggOps condOps greedy answer
      = some (100 * ((greedy.zip hs).countP
            (fun p => lfemMatch aggOps condOps p.1 p.2) : ℚ) / greedy.length,
          (greedy.zip hs).map (fun p => [lowerS p.2.answer]),
          (greedy.zip hs).map (fun p => (lfemStep aggOps condOps p.1 p.2).2)) := by
  have hlen : hs.length = greedy.length := by rw [mapM_some_length hh, ← h2]
  have hzlen : (greedy.zip hs).length = greedy.length := by
    rw [List.length_zip, hlen, Nat.min_self]
  unfold computeLFEM
  rw [hh]
  simp only [Option.pure_def, Option.bind_eq_bind, Option.some_bind]
  rcases lfemGo_spec aggOps condOps (greedy.zip hs) with ⟨hc, hcor, hta, hmut⟩
  rw [if_neg (by rw [hc, hzlen]; simpa [List.length_eq_zero] using h1)]
  rw [hc, hcor, hta, hmut, hzlen, List.drop_eq_nil_of_le (by rw [hlen]),
    List.append_nil]
  rw [show (((greedy.zip hs).countP (fun p => lfemMatch aggOps condOps p.1 p.2) : ℚ)
      / (greedy.length : ℚ) * 100)
    = 100 * ((greedy.zip hs).countP (fun p => lfemMatch aggOps condOps p.1 p.2) : ℚ)
      / (greedy.length : ℚ) from by ring]

/-- A concrete ground-truth record: the prediction
`"select mycol from tbl x"` parses against its one-column table without
consulting the aggregation or conditional operator tables, and its gold SQL
has the upper-case condition value `"ABC"`. -/
def lfemRecEx : AnswerRec :=
  { answer := "Foo", table := ["mycol from"],
    sql := { sel := 0, agg := 0, conds := [{ col := 0, op := 0, val := "ABC" }] } }

/-- `lfemRecEx` after computeLFEM has processed it: the condition value has
been lower-cased in place. -/
def lfemRecExMut : AnswerRec :=
  { answer := "Foo", table := ["mycol from"],
    sql := { sel := 0, agg := 0, conds := [{ col := 0, op := 0, val := "abc" }] } }

/-- C3, witness: a one-example run, with the concrete counts evaluated. -/
theorem computeLFEM_total_score_witness :
    computeLFEM [] [] ["select mycol from tbl x"] [[lfemRecEx]]
      = some (100 * (((["select mycol from tbl x"].zip [lfemRecEx]).countP
            (fun p => lfemMatch [] [] p.1 p.2)) : ℚ)
            / (["select mycol from tbl x"] : List String).length,
          (["select mycol from tbl x"].zip [lfemRecEx]).map (fun p => [lowerS p.2.answer]),
          (["select mycol from tbl x"].zip [lfemRecEx]).map
            (fun p => (lfemStep [] [] p.1 p.2).2)) :=
  computeLFEM_total_score [] [] ["select mycol from tbl x"] [[lfemRecEx]] [lfemRecEx]
    (by decide) (by decide) (by decide)

/-- C4, counterexample: the scoring functions are not all stateless.
computeLFEM mutates its input records: on this concrete example the gold SQL
condition value `"ABC"` inside the answer record is lower-cased in place, so
the record after the call differs from the record before it. -/
theorem computeLFEM_mutation_cex :
    computeLFEM [] [] ["select mycol from tbl x"] [[lfemRecEx]]
      = some (0, [["foo"]], [lfemRecExMut]) ∧ lfemRecExMut ≠ lfemRecEx := by
  constructor
  · have hstep : lfemStep [] [] "select mycol from tbl x" lfemRecEx
        = (false, lfemRecExMut) := by decide
    have hta : lowerS lfemRecEx.answer = "foo" := by decide
    simp [computeLFEM, lfemGo, hstep, hta, List.mapM.loop]
  · decide

/-- C4, amended: computeLFEM's only side effect on its inputs — each
processed record whose prediction `to_lf` can parse gets the condition
values of its gold SQL dict lower-cased in place; records whose prediction
fails to parse, and records beyond the zipped prefix, are returned
unchanged (and nothing else in any record changes). -/
theorem computeLFEM_mutation_spec (aggOps condOps : List String)
    (greedy : List String) (answer : List (List AnswerRec)) (hs : List AnswerRec)
    (q : ℚ) (ta : List (List String)) (post : List AnswerRec)
    (hh : answer.mapM List.head? = some hs)
    (h : computeLFEM aggOps condOps greedy answer = some (q, ta, post)) :
    post = (greedy.zip hs).map (fun p =>
        if (to_lf aggOps condOps p.1 p.2.table).isSome then lowerSqlRec p.2 else p.2)
      ++ hs.drop (greedy.zip hs).length := by
  unfold computeLFEM at h
  rw [hh] at h
  simp only [Option.pure_def, Option.bind_eq_bind, Option.some_bind] at h
  split at h
  · cases h
  · rcases lfemGo_spec aggOps condOps (greedy.zip hs) with ⟨_, _, _, hmut⟩
    cases h
    rw [hmut]
    congr 1
    apply List.map_congr_left
    intro p _
    unfold lfemStep
    cases hto : to_lf aggOps condOps p.1 p.2.table <;> simp [hto]

/-- C4, witness for the amended statement, at the concrete mutating run. -/
theorem computeLFEM_mutation_spec_witness :
    [lfemRecExMut] = ((["select mycol from tbl x"].zip [lfemRecEx]).map (fun p =>
        if (to_lf [] [] p.1 p.2.table).isSome then lowerSqlRec p.2 else p.2))
      ++ [lfemRecEx].drop (["select mycol from tbl x"].zip [lfemRecEx]).length := by
  have h := computeLFEM_mutation_spec [] [] ["select mycol from tbl x"] [[lfemRecEx]]
    [lfemRecEx] 0 [["foo"]] [lfemRecExMut] (by decide) ?_
  · exact h
  · have hstep : lfemStep [] [] "select mycol from tbl x" lfemRecEx
        = (false, lfemRecExMut) := by decide
    have hta : lowerS lfemRecEx.answer = "foo" := by decide
    simp [computeLFEM, lfemGo, hstep, hta, List.mapM.loop]

namespace NED

/-- Length of a recorded span `(type_id, start, end)`. -/
def spanLen (u : Nat × Nat × Nat) : Nat := u.2.2 - u.2.1

/-- Two recorded entries have non-overlapping token spans. -/
def nonOverlapping (a b : Nat × Nat × Nat) : Prop :=
  spansOverlap a.2.1 a.2.2 b.2.1 b.2.2 = false

theorem spansOverlap_symm (s1 e1 s2 e2 : Nat) :
    spansOverlap s1 e1 s2 e2 = spansOverlap s2 e2 s1 e1 := by
  simp only [spansOverlap]
  exact Bool.and_comm _ _

/-- What it means for a recorded entry of lookup_ngrams to be a legitimate
match: a non-empty span within the token list, of a length between the
clamped bounds, whose normalized text is not banned, is not a verb, and is
an alias in the trie. -/
def entryOK (st : EDState) (verbs : List String) (tokens : List String)
    (minE maxE : Nat) (u : Nat × Nat × Nat) : Prop :=
  u.2.1 < u.2.2 ∧ u.2.2 ≤ tokens.length ∧ minE ≤ spanLen u ∧ spanLen u ≤ maxE ∧
  (st.is_banned (st.normalize (joinSpace ((tokens.drop u.2.1).take (spanLen u)))) = false ∧
   verbs.contains (st.normalize (joinSpace ((tokens.drop u.2.1).take (spanLen u)))) = false ∧
   st.all_aliases.contains (st.normalize (joinSpace ((tokens.drop u.2.1).take (spanLen u)))) = true)

/-- Invariant carried through the scan at n-gram length `n`. -/
def scanInv (st : EDState) (verbs : List String) (tokens : List String)
    (minE maxE n : Nat) (acc : List (Nat × Nat × Nat)) : Prop :=
  acc.Pairwise nonOverlapping ∧
  acc.Pairwise (fun a b => spanLen b ≤ spanLen a) ∧
  (∀ u ∈ acc, n ≤ spanLen u ∧ entryOK st verbs tokens minE maxE u)

theorem processCand_inv {st : EDState} {verbs tokens : List String}
    {minE maxE n s : Nat} {acc acc' : List (Nat × Nat × Nat)}
    (hn : minE ≤ n) (hn2 : n ≤ maxE) (hn0 : n ≠ 0) (hs : s + n ≤ tokens.length)
    (hinv : scanInv st verbs tokens minE maxE n acc)
    (h : processCand st verbs tokens n s acc = some acc') :
    scanInv st verbs tokens minE maxE n acc' := by
  unfold processCand at h
  by_cases hc : (!st.is_banned (st.normalize (joinSpace ((tokens.drop s).take n)))
      && !verbs.contains (st.normalize (joinSpace ((tokens.drop s).take n)))
      && st.all_aliases.contains (st.normalize (joinSpace ((tokens.drop s).take n)))) = true
  · rw [if_pos hc] at h
    by_cases hov : hasOverlapB s (s + n) acc = true
    · rw [if_pos hov] at h
      cases h
      exact hinv
    · rw [if_neg hov] at h
      rcases Option.bind_eq_some.mp h with ⟨ty, _, h2⟩
      cases h2
      simp only [Bool.and_eq_true, Bool.not_eq_true'] at hc
      rcases hinv with ⟨hno, hld, hmem⟩
      have hspan : spanLen ((dictLookup st.typeqid2id ty).getD st.unk_id, s, s + n) = n := by
        simp [spanLen]
      have hfls : hasOverlapB s (s + n) acc = false := by
        simpa using hov
      have hall : ∀ u ∈ acc, spansOverlap s (s + n) u.2.1 u.2.2 = false := by
        intro u hu
        by_contra hcon
        have htr : hasOverlapB s (s + n) acc = true := by
          unfold hasOverlapB
          rw [List.any_eq_true]
          exact ⟨u, hu, by simpa using hcon⟩
        rw [htr] at hfls
        cases hfls
      have hnov : ∀ a ∈ acc,
          nonOverlapping a ((dictLookup st.typeqid2id ty).getD st.unk_id, s, s + n) := by
        intro a ha
        unfold nonOverlapping
        rw [spansOverlap_symm]
        exact hall a ha
      refine ⟨?_, ?_, ?_⟩
      · rw [List.pairwise_append]
        exact ⟨hno, List.pairwise_singleton _ _, by
          intro a ha b hb
          rw [List.mem_singleton] at hb
          exact hb ▸ hnov a ha⟩
      · rw [List.pairwise_append]
        refine ⟨hld, List.pairwise_singleton _ _, ?_⟩
        intro a ha b hb
        rw [List.mem_singleton] at hb
        subst hb
        rw [hspan]
        exact (hmem a ha).1
      · intro u hu
        rcases List.mem_append.mp hu with hu | hu
        · exact hmem u hu
        · rw [List.mem_singleton] at hu
          subst hu
          refine ⟨by simp [hspan], ?_, hs, by rw [hspan]; exact hn,
            by rw [hspan]; exact hn2, ?_⟩
          · show s < s + n
            omega
          · simp only [spanLen, Nat.add_sub_cancel_left]
            exact ⟨hc.1.1, hc.1.2, hc.2⟩
  · rw [if_neg hc] at h
    cases h
    exact hinv

theorem descRange_mem {hi lo x : Nat} (h : x ∈ descRange hi lo) : lo ≤ x ∧ x ≤ hi := by
  unfold descRange at h
  rcases List.mem_map.mp h with ⟨j, hj, rfl⟩
  rw [List.mem_range] at hj
  omega

theorem descRange_pairwise (hi lo : Nat) :
    (descRange hi lo).Pairwise (fun a b => b ≤ a) := by
  unfold descRange
  rw [List.pairwise_map]
  apply List.Pairwise.imp_of_mem ?_ (List.pairwise_lt_range _)
  intro i j hi' hj' hij
  rw [List.mem_range] at hi' hj'
  omega

theorem ngramStarts_mem {numToks n s : Nat} (h : s ∈ ngramStarts numToks n) :
    n ≠ 0 ∧ s + n ≤ numToks := by
  unfold ngramStarts at h
  split at h
  · cases h
  · rw [List.mem_range] at h
    constructor
    · assumption
    · omega

theorem scanLevel_inv {st : EDState} {verbs tokens : List String} {minE maxE n : Nat}
    {acc acc' : List (Nat × Nat × Nat)}
    (hn : minE ≤ n) (hn2 : n ≤ maxE)
    (h : (ngramStarts tokens.length n).foldlM
      (fun used s => processCand st verbs tokens n s used) acc = some acc')
    (hinv : scanInv st verbs tokens minE maxE n acc) :
    scanInv st verbs tokens minE maxE n acc' := by
  refine foldlM_option_inv (scanInv st verbs tokens minE maxE n) ?_ h hinv
  intro y s z hs hy hz
  rcases ngramStarts_mem hs with ⟨h0, hb⟩
  exact processCand_inv hn hn2 h0 hb hy hz

/-- Result invariants of the full two-level scan of lookup_ngrams. -/
theorem ngramUsed_inv {st : EDState} {tokens : List String}
    {min_entity_len max_entity_len : Nat} {used : List (Nat × Nat × Nat)}
    (h : ngramUsed st tokens min_entity_len max_entity_len = some used) :
    used.Pairwise nonOverlapping ∧
    used.Pairwise (fun a b => spanLen b ≤ spanLen a) ∧
    ∀ u ∈ used, entryOK st (verbTokens st tokens) tokens
      (min min_entity_len tokens.length) (min max_entity_len tokens.length) u := by
  unfold ngramUsed at h
  set minE := min min_entity_len tokens.length with hminE
  set maxE := min max_entity_len tokens.length with hmaxE
  set verbs := verbTokens st tokens with hverbs
  suffices hgen : ∀ (lens : List Nat) (acc out : List (Nat × Nat × Nat)),
      (∀ n ∈ lens, minE ≤ n ∧ n ≤ maxE) →
      lens.Pairwise (fun a b => b ≤ a) →
      (∀ u ∈ acc, ∀ n ∈ lens, n ≤ spanLen u) →
      acc.Pairwise nonOverlapping →
      acc.Pairwise (fun a b => spanLen b ≤ spanLen a) →
      (∀ u ∈ acc, entryOK st verbs tokens minE maxE u) →
      lens.foldlM (fun used n => (ngramStarts tokens.length n).foldlM
        (fun used s => processCand st verbs tokens n s used) used) acc = some out →
      out.Pairwise nonOverlapping ∧
      out.Pairwise (fun a b => spanLen b ≤ spanLen a) ∧
      ∀ u ∈ out, entryOK st verbs tokens minE maxE u by
    exact hgen (descRange maxE minE) [] used
      (fun n hn => descRange_mem hn) (descRange_pairwise _ _)
      (by intro u hu; cases hu) (List.Pairwise.nil) (List.Pairwise.nil)
      (by intro u hu; cases hu) h
  intro lens
  induction lens with
  | nil =>
    intro acc out _ _ _ h1 h2 h3 hfold
    rw [List.foldlM_nil] at hfold
    cases hfold
    exact ⟨h1, h2, h3⟩
  | cons n rest ih =>
    intro acc out hbnd hpw hmin h1 h2 h3 hfold
    rw [List.foldlM_cons] at hfold
    rcases Option.bind_eq_some.mp hfold with ⟨mid, hmid, hrest⟩
    have hinv : scanInv st verbs tokens minE maxE n acc :=
      ⟨h1, h2, fun u hu => ⟨hmin u hu n (List.mem_cons_self _ _), h3 u hu⟩⟩
    have hmidinv := scanLevel_inv (hbnd n (List.mem_cons_self _ _)).1
      (hbnd n (List.mem_cons_self _ _)).2 hmid hinv
    exact ih mid out
      (fun m hm => hbnd m (List.mem_cons_of_mem _ hm))
      (List.Pairwise.sublist (List.sublist_cons_self _ _) hpw)
      (fun u hu m hm => Nat.le_trans
        ((List.pairwise_cons.mp hpw).1 m hm) (hmidinv.2.2 u hu).1)
      hmidinv.1 hmidinv.2.1 (fun u hu => (hmidinv.2.2 u hu).2) hrest

/-- C5: for every token list and every pair of entity-length bounds, the
spans recorded by lookup_ngrams' greedy scan are pairwise non-overlapping;
they are recorded in order of non-increasing length (the scan walks lengths
from the larger clamped bound down to the smaller, so a longer match always
takes precedence over any shorter overlapping one, which is skipped); and
every recorded span is a real match: non-empty, inside the token list,
between the clamped bounds, with normalized text that is not banned, not a
verb, and an alias in the trie. -/
theorem lookup_ngrams_spans (st : EDState) (tokens : List String)
    (min_entity_len max_entity_len : Nat) (used : List (Nat × Nat × Nat))
    (hml : min_entity_len ≤ max_entity_len)
    (h : ngramUsed st tokens min_entity_len max_entity_len = some used) :
    used.Pairwise nonOverlapping ∧
    used.Pairwise (fun a b => spanLen b ≤ spanLen a) ∧
    ∀ u ∈ used, entryOK st (verbTokens st tokens) tokens
      (min min_entity_len tokens.length) (min max_entity_len tokens.length) u :=
  ngramUsed_inv h

/-- A concrete disambiguator state whose trie holds the two-token alias
`"new york"` and the one-token alias `"york"`. -/
def stC5 : EDState :=
  { unk_id := 3, max_features_size := 2,
    typeqid2id := [("T", 7)], alias2type := [("new york", "T"), ("york", "T")],
    all_aliases := ["new york", "york"],
    is_banned := fun _ => false, normalize := fun s => s,
    pos_tag := fun ts => ts.map (fun t => (t, "N")) }

/-- C5, witness: on `["in", "new", "york", "city"]` the 2-gram `"new york"`
is recorded and the overlapping shorter alias `"york"` is skipped. -/
theorem lookup_ngrams_spans_witness :
    ([(7, 1, 3)] : List (Nat × Nat × Nat)).Pairwise nonOverlapping ∧
    ([(7, 1, 3)] : List (Nat × Nat × Nat)).Pairwise (fun a b => spanLen b ≤ spanLen a) ∧
    ∀ u ∈ ([(7, 1, 3)] : List (Nat × Nat × Nat)),
      entryOK stC5 (verbTokens stC5 ["in", "new", "york", "city"])
        ["in", "new", "york", "city"] (min 1 ["in", "new", "york", "city"].length)
        (min 4 ["in", "new", "york", "city"].length) u :=
  lookup_ngrams_spans stC5 ["in", "new", "york", "city"] 1 4 [(7, 1, 3)]
    (by decide) (by decide)

theorem insDescBy_mem {α : Type} {key : α → Nat} {x y : α} :
    ∀ {acc : List α}, x ∈ insDescBy key acc y → x ∈ acc ∨ x = y := by
  intro acc
  induction acc with
  | nil =>
    intro h
    right
    simpa [insDescBy] using h
  | cons z zs ih =>
    intro h
    rw [insDescBy] at h
    split at h
    · rcases List.mem_cons.mp h with h | h
      · exact Or.inr h
      · exact Or.inl h
    · rcases List.mem_cons.mp h with h | h
      · exact Or.inl (h ▸ List.mem_cons_self _ _)
      · rcases ih h with h | h
        · exact Or.inl (List.mem_cons_of_mem _ h)
        · exact Or.inr h

theorem sortDescBy_mem {α : Type} {key : α → Nat} {x : α} {l : List α}
    (h : x ∈ sortDescBy key l) : x ∈ l := by
  unfold sortDescBy at h
  suffices hgen : ∀ (l acc : List α), x ∈ l.foldl (insDescBy key) acc →
      x ∈ acc ∨ x ∈ l by
    rcases hgen l [] h with h | h
    · cases h
    · exact h
  intro l
  induction l with
  | nil => intro acc h; exact Or.inl h
  | cons z zs ih =>
    intro acc h
    rw [List.foldl_cons] at h
    rcases ih _ h with h | h
    · rcases insDescBy_mem h with h | h
      · exact Or.inl h
      · exact Or.inr (h ▸ List.mem_cons_self _ _)
    · exact Or.inr (List.mem_cons_of_mem _ h)

/-- Well-formedness of a disambiguator state, reflecting what the
Naive/EntityOracle constructors guarantee: every trie key is a key of
`alias2type`, the resulting type has an id in `typeqid2id`, and no alias is
empty or whitespace-only (an alias with an empty `split()` would make
lookup_smaller's while loop spin forever in Python). -/
def WfState (st : EDState) : Prop :=
  (∀ k ∈ st.all_aliases, ∃ ty, dictLookup st.alias2type k = some ty ∧
      ∃ i, dictLookup st.typeqid2id ty = some i) ∧
  ∀ k ∈ st.all_aliases, pySplit k ≠ []

theorem smFind_total {st : EDState} {tokens : List String} {i : Nat} :
    ∀ {ks : List String},
      (∀ k ∈ ks, ∃ ty, dictLookup st.alias2type k = some ty) →
      ∃ r, smFind st tokens i ks = some r := by
  intro ks
  induction ks with
  | nil => intro _; exact ⟨none, rfl⟩
  | cons k ks ih =>
    intro hks
    rcases hks k (List.mem_cons_self _ _) with ⟨ty, hty⟩
    rw [smFind, hty]
    simp only [Option.pure_def, Option.bind_eq_bind, Option.some_bind]
    by_cases hcond : ((pySplit k).isPrefixOf (tokens.drop i)
        && !st.is_banned (joinSpace (pySplit k))) = true
    · rw [if_pos hcond]
      exact ⟨some (k, ty), rfl⟩
    · rw [if_neg hcond]
      exact ih (fun k' hk' => hks k' (List.mem_cons_of_mem _ hk'))

theorem smFind_sound {st : EDState} {tokens : List String} {i : Nat} {k : String}
    {ty : String} :
    ∀ {ks : List String}, smFind st tokens i ks = some (some (k, ty)) →
      k ∈ ks ∧ dictLookup st.alias2type k = some ty ∧
      (pySplit k).isPrefixOf (tokens.drop i) = true := by
  intro ks
  induction ks with
  | nil =>
    intro h
    simp [smFind] at h
  | cons k' ks ih =>
    intro h
    rw [smFind] at h
    rcases Option.bind_eq_some.mp h with ⟨ty', hty', h2⟩
    split at h2
    case isTrue hcond =>
      simp only [Option.pure_def, Option.some.injEq, Prod.mk.injEq] at h2
      rcases h2 with ⟨h4, h5⟩
      subst h4
      subst h5
      simp only [Bool.and_eq_true] at hcond
      exact ⟨List.mem_cons_self _ _, hty', hcond.1⟩
    case isFalse =>
      rcases ih h2 with ⟨hm, hd, hp⟩
      exact ⟨List.mem_cons_of_mem _ hm, hd, hp⟩

theorem smGo_length {st : EDState} (tokens : List String) (hwf : WfState st) :
    ∀ (fuel : Nat) (i : Nat) (acc : List (List Nat)),
      i ≤ tokens.length → tokens.length ≤ i + fuel →
      ∃ l, smGo st tokens fuel i acc = some (acc ++ l) ∧
        l.length = tokens.length - i := by
  intro fuel
  induction fuel with
  | zero =>
    intro i acc h1 h2
    have hnlt : ¬ i < tokens.length := by omega
    refine ⟨[], ?_, by simp only [List.length_nil]; omega⟩
    rw [smGo, if_neg hnlt, List.append_nil]
  | succ fuel ih =>
    intro i acc h1 h2
    by_cases hlt : i < tokens.length
    · rw [smGo, if_pos hlt]
      have htot : ∃ r, smFind st tokens i (matchedItems st (tokens.getD i "")) = some r := by
        apply smFind_total
        intro k hk
        have hmem : k ∈ st.all_aliases :=
          (List.mem_filter.mp (sortDescBy_mem hk)).1
        rcases hwf.1 k hmem with ⟨ty, hty, _⟩
        exact ⟨ty, hty⟩
      rcases htot with ⟨r, hr⟩
      rw [hr]
      simp only [Option.pure_def, Option.bind_eq_bind, Option.some_bind]
      cases r with
      | none =>
        rcases ih (i + 1) (acc ++ [[st.unk_id * st.max_features_size]])
          (by omega) (by omega) with ⟨l, hl, hlen⟩
        refine ⟨[[st.unk_id * st.max_features_size]] ++ l, ?_, ?_⟩
        · rw [hl, List.append_assoc]
        · simp only [List.length_append, List.length_singleton, hlen]
          omega
      | some kt =>
        obtain ⟨k, ty⟩ := kt
        rcases smFind_sound hr with ⟨hkm, hty, hpre⟩
        have hkal : k ∈ st.all_aliases := (List.mem_filter.mp (sortDescBy_mem hkm)).1
        rcases hwf.1 k hkal with ⟨ty2, hty2, i2, hid⟩
        have hty2' : ty2 = ty := by
          rw [hty] at hty2
          injection hty2 with h
          exact h.symm
        subst hty2'
        simp only [hid, Option.some_bind]
        have hm1 : 1 ≤ (pySplit k).length :=
          List.length_pos.mpr (hwf.2 k hkal)
        have hmle : (pySplit k).length ≤ tokens.length - i := by
          have := List.IsPrefix.length_le (List.isPrefixOf_iff_prefix.mp hpre)
          simpa [List.length_drop] using this
        rcases ih (i + (pySplit k).length)
          (acc ++ List.replicate (pySplit k).length [i2 * st.max_features_size])
          (by omega) (by omega) with ⟨l, hl, hlen⟩
        refine ⟨List.replicate (pySplit k).length [i2 * st.max_features_size] ++ l, ?_, ?_⟩
        · rw [hl, List.append_assoc]
        · simp only [List.length_append, List.length_replicate, hlen]
          omega
    · rw [smGo, if_neg hlt]
      refine ⟨[], by rw [List.append_nil], by simp only [List.length_nil]; omega⟩

theorem lgGo_length {st : EDState} (tokens : List String) (hwf : WfState st) :
    ∀ (fuel : Nat) (i : Nat) (acc : List (List Nat)),
      i ≤ tokens.length → tokens.length ≤ i + fuel →
      ∃ l, lgGo st tokens fuel i acc = some (acc ++ l) ∧
        l.length = tokens.length - i := by
  intro fuel
  induction fuel with
  | zero =>
    intro i acc h1 h2
    have hnlt : ¬ i < tokens.length := by omega
    refine ⟨[], ?_, by simp only [List.length_nil]; omega⟩
    rw [lgGo, if_neg hnlt, List.append_nil]
  | succ fuel ih =>
    intro i acc h1 h2
    by_cases hlt : i < tokens.length
    · rw [lgGo, if_pos hlt]
      cases hfind : (descRange tokens.length (i + 1)).find?
          (fun e => st.all_aliases.contains
            (joinSpace ((tokens.drop i).take (e - i)))) with
      | none =>
        rcases ih (i + 1) (acc ++ [[st.unk_id * st.max_features_size]])
          (by omega) (by omega) with ⟨l, hl, hlen⟩
        refine ⟨[[st.unk_id * st.max_features_size]] ++ l, ?_, ?_⟩
        · rw [hl, List.append_assoc]
        · simp only [List.length_append, List.length_singleton, hlen]
          omega
      | some e =>
        rcases descRange_mem (List.mem_of_find?_eq_some hfind) with ⟨he1, he2⟩
        have hmem : joinSpace ((tokens.drop i).take (e - i)) ∈ st.all_aliases := by
          have := List.find?_some hfind
          simpa using this
        rcases hwf.1 _ hmem with ⟨ty, hty, i2, hid⟩
        simp only [hty, hid, Option.pure_def, Option.bind_eq_bind, Option.some_bind]
        rcases ih e (acc ++ List.replicate (e - i) [i2 * st.max_features_size])
          (by omega) (by omega) with ⟨l, hl, hlen⟩
        refine ⟨List.replicate (e - i) [i2 * st.max_features_size] ++ l, ?_, ?_⟩
        · rw [hl, List.append_assoc]
        · simp only [List.length_append, List.length_replicate, hlen]
          omega
    · rw [lgGo, if_neg hlt]
      refine ⟨[], by rw [List.append_nil], by simp only [List.length_nil]; omega⟩

theorem foldlM_option_total {α β : Type} {f : β → α → Option β} :
    ∀ {xs : List α} {a : β}, (∀ b x, x ∈ xs → ∃ c, f b x = some c) →
      ∃ b', List.foldlM f a xs = some b' := by
  intro xs
  induction xs with
  | nil => intro a _; exact ⟨a, rfl⟩
  | cons x xs ih =>
    intro a htot
    rcases htot a x (List.mem_cons_self _ _) with ⟨c, hc⟩
    rw [List.foldlM_cons, hc]
    simp only [Option.pure_def, Option.bind_eq_bind, Option.some_bind]
    exact ih (fun b y hy => htot b y (List.mem_cons_of_mem _ hy))

theorem processCand_total {st : EDState} {verbs tokens : List String} {n s : Nat}
    (acc : List (Nat × Nat × Nat))
    (hwf : ∀ k ∈ st.all_aliases, ∃ ty, dictLookup st.alias2type k = some ty) :
    ∃ acc', processCand st verbs tokens n s acc = some acc' := by
  unfold processCand
  by_cases hc : (!st.is_banned (st.normalize (joinSpace ((tokens.drop s).take n)))
      && !verbs.contains (st.normalize (joinSpace ((tokens.drop s).take n)))
      && st.all_aliases.contains (st.normalize (joinSpace ((tokens.drop s).take n)))) = true
  · rw [if_pos hc]
    by_cases hov : hasOverlapB s (s + n) acc = true
    · rw [if_pos hov]
      exact ⟨acc, rfl⟩
    · rw [if_neg hov]
      have hmem : st.normalize (joinSpace ((tokens.drop s).take n)) ∈ st.all_aliases := by
        simp only [Bool.and_eq_true] at hc
        simpa using hc.2
      rcases hwf _ hmem with ⟨ty, hty⟩
      rw [hty]
      simp only [Option.pure_def, Option.bind_eq_bind, Option.some_bind]
      exact ⟨_, rfl⟩
  · rw [if_neg hc]
    exact ⟨acc, rfl⟩

theorem ngramUsed_total {st : EDState} (tokens : List String)
    (min_entity_len max_entity_len : Nat)
    (hwf : ∀ k ∈ st.all_aliases, ∃ ty, dictLookup st.alias2type k = some ty) :
    ∃ used, ngramUsed st tokens min_entity_len max_entity_len = some used := by
  unfold ngramUsed
  apply foldlM_option_total
  intro b n _
  apply foldlM_option_total
  intro b' s _
  exact processCand_total b' hwf

theorem pySetSlice_length {α : Type} (l : List α) (b e : Nat) (xs : List α)
    (hb : b ≤ e) (he : e ≤ l.length) (hx : xs.length = e - b) :
    (pySetSlice l b e xs).length = l.length := by
  unfold pySetSlice
  rw [List.length_append, List.length_append, List.length_take, List.length_drop,
    Nat.max_eq_right hb]
  omega

theorem ngram_fold_length (mfs : Nat) :
    ∀ (used : List (Nat × Nat × Nat)) (init : List (List Nat)) (n : Nat),
      init.length = n → (∀ u ∈ used, u.2.1 < u.2.2 ∧ u.2.2 ≤ n) →
      (used.foldl (fun tti u => pySetSlice tti u.2.1 u.2.2
        (List.replicate (u.2.2 - u.2.1) (List.replicate mfs u.1))) init).length = n := by
  intro used
  induction used with
  | nil =>
    intro init n hinit _
    rw [List.foldl_nil]
    exact hinit
  | cons u us ih =>
    intro init n hinit hb
    rw [List.foldl_cons]
    apply ih
    · rw [pySetSlice_length]
      · exact hinit
      · exact Nat.le_of_lt (hb u (List.mem_cons_self _ _)).1
      · rw [hinit]
        exact (hb u (List.mem_cons_self _ _)).2
      · rw [List.length_replicate]
    · intro v hv
      exact hb v (List.mem_cons_of_mem _ hv)

theorem lookup_ngrams_length {st : EDState} {tokens : List String}
    {min_entity_len max_entity_len : Nat}
    (hwf : ∀ k ∈ st.all_aliases, ∃ ty, dictLookup st.alias2type k = some ty) :
    ∃ l, lookup_ngrams st tokens min_entity_len max_entity_len = some l ∧
      l.length = tokens.length := by
  rcases ngramUsed_total tokens min_entity_len max_entity_len hwf
    with ⟨used, hused⟩
  rcases ngramUsed_inv hused with ⟨_, _, hok⟩
  unfold lookup_ngrams
  rw [hused]
  simp only [Option.pure_def, Option.bind_eq_bind, Option.some_bind]
  refine ⟨_, rfl, ?_⟩
  apply ngram_fold_length
  · rw [List.length_replicate]
  · intro u hu
    exact ⟨(hok u hu).1, (hok u hu).2.1⟩

/-- C8: under the state well-formedness that the constructors guarantee,
`lookup` returns, for every token list and every value of
`database_lookup_method` (the three recognized strategies and the
all-unknown default for anything else), a list with exactly one entry per
input token. -/
theorem lookup_entry_per_token (st : EDState) (tokens : List String)
    (database_lookup_method : Option String) (min_entity_len max_entity_len : Nat)
    (hwf : WfState st) :
    ∃ l, lookup st tokens database_lookup_method min_entity_len max_entity_len
      = some l ∧ l.length = tokens.length := by
  unfold lookup
  split_ifs
  · rcases smGo_length tokens hwf tokens.length 0 [] (Nat.zero_le _) (by omega)
      with ⟨l, hl, hlen⟩
    refine ⟨l, ?_, ?_⟩
    · simpa [lookup_smaller] using hl
    · omega
  · rcases lgGo_length tokens hwf tokens.length 0 [] (Nat.zero_le _) (by omega)
      with ⟨l, hl, hlen⟩
    refine ⟨l, ?_, ?_⟩
    · simpa [lookup_longer] using hl
    · omega
  · exact lookup_ngrams_length (fun k hk => by
      rcases hwf.1 k hk with ⟨ty, hty, _⟩
      exact ⟨ty, hty⟩)
  · exact ⟨_, rfl, by rw [List.length_replicate]⟩

/-- A minimal well-formed state with `max_features_size = 2`, `unk_id = 3`
and an empty alias set. -/
def stBug : EDState :=
  { unk_id := 3, max_features_size := 2, typeqid2id := [], alias2type := [],
    all_aliases := [], is_banned := fun _ => false, normalize := fun s => s,
    pos_tag := fun ts => ts.map (fun t => (t, "N")) }

/-- C8, witness: a concrete one-token lookup under each dispatch value
returns a one-entry list. -/
theorem lookup_entry_per_token_witness :
    ∃ l, lookup stBug ["x"] (some "smaller_first") 2 4 = some l ∧
      l.length = (["x"] : List String).length :=
  lookup_entry_per_token stBug ["x"] (some "smaller_first") 2 4
    (by constructor <;> simp [stBug])

/-- C9: the code contradicts the per-token entry-width invariant.  On the
`smaller_first` path the row written for an unmatched token is
`[[self.unk_id * self.max_features_size]]` — a single-element list holding
the product `3 * 2 = 6` — rather than a `max_features_size`-wide row such as
the `[3, 3]` produced by the default path on the same state (the
`longer_first` path shares the same `[x * k]`-for-`[x] * k` slip). -/
theorem lookup_smaller_row_width_bug :
    lookup stBug ["x"] (some "smaller_first") 2 4 = some [[6]] ∧
    ([6] : List Nat).length ≠ stBug.max_features_size ∧
    lookup stBug ["x"] none 2 4 = some [[3, 3]] := by
  refine ⟨by decide, by decide, by decide⟩

end NED

namespace NED

theorem memChars_empty (l : List Char) : CTrie.empty.memChars l = false := by
  cases l with
  | nil => rfl
  | cons c rest => simp [CTrie.empty, CTrie.memChars]

theorem memChars_insertChars (k : List Char) :
    ∀ (t : CTrie) (l : List Char),
      (t.insertChars k).memChars l = (decide (l = k) || t.memChars l) := by
  induction k with
  | nil =>
    intro t l
    obtain ⟨b, ch⟩ := t
    cases l with
    | nil => simp [CTrie.insertChars, CTrie.memChars]
    | cons c rest => simp [CTrie.insertChars, CTrie.memChars]
  | cons c k ih =>
    intro t l
    obtain ⟨b, ch⟩ := t
    cases l with
    | nil => simp [CTrie.insertChars, CTrie.memChars]
    | cons c' rest =>
      by_cases hc : c' = c
      · subst hc
        cases hch : ch c' with
        | none =>
          simp [CTrie.insertChars, CTrie.memChars, hch, ih, memChars_empty,
            List.cons.injEq]
        | some t' =>
          simp [CTrie.insertChars, CTrie.memChars, hch, ih, List.cons.injEq]
      · cases hch : ch c' with
        | none => simp [CTrie.insertChars, CTrie.memChars, hch, hc]
        | some t' => simp [CTrie.insertChars, CTrie.memChars, hch, hc]

theorem memS_buildTrie (keys : List String) (s : String) :
    (buildTrie keys).memS s = keys.contains s := by
  unfold buildTrie CTrie.memS
  suffices hgen : ∀ (t : CTrie),
      (keys.foldl (fun t k => t.insertChars k.data) t).memChars s.data
        = (keys.contains s || t.memChars s.data) by
    rw [hgen CTrie.empty, memChars_empty, Bool.or_false]
  induction keys with
  | nil => intro t; simp
  | cons k ks ih =>
    intro t
    rw [List.foldl_cons, ih, memChars_insertChars]
    simp only [List.contains_cons]
    have hdata : decide (s.data = k.data) = (s == k) := by
      by_cases h : s = k
      · subst h; simp
      · have hne : s.data ≠ k.data := fun hc => h (String.ext hc)
        simp [h, hne]
    rw [hdata]
    cases s == k <;> cases ks.contains s <;> cases t.memChars s.data <;> rfl

/-- C7: membership in the marisa trie built by the
NaiveEntityDisambiguator / EntityOracleEntityDisambiguator constructors
(`marisa_trie.Trie(self.alias2type.keys())`, modelled as a prefix tree)
holds exactly for the keys of the loaded `alias2type` dict, so the trie
membership test used by every matching strategy agrees with direct
dictionary-key membership. -/
theorem naive_trie_membership (alias2type : List (String × String)) (s : String) :
    (naiveAllAliases alias2type).memS s = true ↔ s ∈ alias2type.map Prod.fst := by
  unfold naiveAllAliases
  rw [memS_buildTrie]
  exact List.elem_iff

end NED

theorem lookup_mem_pairs {β : Type} {a : Char} {b : β} :
    ∀ {l : List (Char × β)}, l.lookup a = some b → (a, b) ∈ l := by
  intro l
  induction l with
  | nil => intro h; simp [List.lookup] at h
  | cons p rest ih =>
    intro h
    obtain ⟨k, v⟩ := p
    cases hk : (a == k) with
    | true =>
      simp only [List.lookup, hk, Option.some.injEq] at h
      subst h
      have : a = k := eq_of_beq hk
      subst this
      exact List.mem_cons_self _ _
    | false =>
      simp only [List.lookup, hk] at h
      exact List.mem_cons_of_mem _ (ih h)

theorem lowerChar_lookup_snd {c d : Char} (h : upperLower.lookup c = some d) :
    upperLower.lookup d = none := by
  have hmem : d ∈ upperLower.map Prod.snd := by
    have := lookup_mem_pairs h
    exact List.mem_map.mpr ⟨(c, d), this, rfl⟩
  have hall : ∀ d ∈ upperLower.map Prod.snd, upperLower.lookup d = none := by decide
  exact hall d hmem

theorem lowerChar_idem (c : Char) : lowerChar (lowerChar c) = lowerChar c := by
  unfold lowerChar
  cases h : upperLower.lookup c with
  | none => rw [Option.getD_none, h, Option.getD_none]
  | some d => rw [Option.getD_some, lowerChar_lookup_snd h, Option.getD_none]

theorem lowerChar_space : lowerChar ' ' = ' ' := by decide

theorem space_not_punct : punctChars.contains ' ' = false := by decide

theorem ws_not_word {c : Char} (h : isWs c = true) : isWordChar c = false := by
  have hmem : c ∈ wsChars := by
    have := h
    unfold isWs at this
    exact List.elem_iff.mp this
  fin_cases hmem <;> decide

theorem space_not_word : isWordChar ' ' = false := by decide

theorem takeRun_append (p : Char → Bool) :
    ∀ l : List Char, (takeRun p l).1 ++ (takeRun p l).2 = l := by
  intro l
  induction l with
  | nil => rfl
  | cons c rest ih =>
    by_cases h : p c = true
    · simp [takeRun, h, ih]
    · simp [takeRun, h]

theorem takeRun_fst_all (p : Char → Bool) :
    ∀ l : List Char, ∀ c ∈ (takeRun p l).1, p c = true := by
  intro l
  induction l with
  | nil => intro c h; cases h
  | cons c' rest ih =>
    intro c h
    by_cases hp : p c' = true
    · simp only [takeRun, hp, if_true] at h
      rcases List.mem_cons.mp h with h | h
      · exact h ▸ hp
      · exact ih c h
    · simp [takeRun, hp] at h

theorem takeRun_snd_cases (p : Char → Bool) :
    ∀ l : List Char, (takeRun p l).2 = [] ∨
      ∃ d r, (takeRun p l).2 = d :: r ∧ p d = false := by
  intro l
  induction l with
  | nil => exact Or.inl rfl
  | cons c rest ih =>
    by_cases hp : p c = true
    · simpa [takeRun, hp] using ih
    · right
      exact ⟨c, rest, by simp [takeRun, hp], by simpa using hp⟩

theorem takeRun_fst_cons (p : Char → Bool) {c : Char} (l : List Char) (h : p c = true) :
    takeRun p (c :: l) = (c :: (takeRun p l).1, (takeRun p l).2) := by
  simp [takeRun, h]

theorem takeRun_fst_nil {p : Char → Bool} {c : Char} (l : List Char) (h : p c = false) :
    takeRun p (c :: l) = ([], c :: l) := by
  simp [takeRun, h]

theorem segs_cons_nonword {c : Char} (l : List Char) (h : isWordChar c = false) :
    segs (c :: l) = (false, [c]) :: segs l := by
  show segChar c (segs l) = _
  unfold segChar
  rw [h]
  simp

theorem segs_foldr_append (x y : List Char) :
    segs (x ++ y) = x.foldr segChar (segs y) := by
  unfold segs
  rw [List.foldr_append]

theorem segs_eq_nil_iff (l : List Char) : segs l = [] ↔ l = [] := by
  cases l with
  | nil => simp [segs]
  | cons c rest =>
    constructor
    · intro h
      exfalso
      have : segChar c (segs rest) = [] := h
      unfold segChar at this
      by_cases hw : isWordChar c = true
      · rw [hw] at this
        simp only [if_true] at this
        cases hseg : segs rest with
        | nil => rw [hseg] at this; simp at this
        | cons s ss =>
          rw [hseg] at this
          obtain ⟨b, w⟩ := s
          cases b <;> simp at this
      · rw [if_neg hw] at this
        simp at this
    · intro h
      cases h

theorem word_prepend (w : List Char) (R : List (Bool × List Char))
    (hne : w ≠ []) (hall : ∀ c ∈ w, isWordChar c = true)
    (hR : ∀ s ∈ R.head?, s.1 = false) :
    w.foldr segChar R = (true, w) :: R := by
  induction w with
  | nil => cases hne rfl
  | cons c w' ih =>
    rw [List.foldr_cons]
    by_cases hw' : w' = []
    · subst hw'
      rw [List.foldr_nil]
      unfold segChar
      rw [hall c (List.mem_cons_self _ _)]
      simp only [if_true]
      cases R with
      | nil => rfl
      | cons s ss =>
        obtain ⟨b, ws⟩ := s
        cases b with
        | false => rfl
        | true =>
          exfalso
          have := hR (true, ws) (by simp)
          simp at this
    · rw [ih hw' (fun c hc => hall c (List.mem_cons_of_mem _ hc))]
      unfold segChar
      rw [hall c (List.mem_cons_self _ _)]
      simp

theorem segChar_nonword (c : Char) (A : List (Bool × List Char))
    (hw : isWordChar c = false) : segChar c A = (false, [c]) :: A := by
  unfold segChar
  rw [hw]
  simp

theorem segChar_word_merge (c : Char) (w : List Char) (ss : List (Bool × List Char))
    (hw : isWordChar c = true) :
    segChar c ((true, w) :: ss) = (true, c :: w) :: ss := by
  unfold segChar
  rw [hw]
  simp

theorem segChar_word_fresh (c : Char) (A : List (Bool × List Char))
    (hw : isWordChar c = true) (hA : ∀ s ∈ A.head?, s.1 = false) :
    segChar c A = (true, [c]) :: A := by
  unfold segChar
  rw [hw]
  simp only [if_true]
  cases A with
  | nil => rfl
  | cons s ss =>
    obtain ⟨b, ws⟩ := s
    cases b with
    | false => rfl
    | true =>
      exfalso
      have := hA (true, ws) (by simp)
      simp at this

/-- Segmentations compose across a boundary whose right side's first
segment is not a word run. -/
theorem seg_app (x : List Char) (R : List (Bool × List Char))
    (hR : ∀ s ∈ R.head?, s.1 = false) :
    x.foldr segChar R = segs x ++ R := by
  induction x with
  | nil => simp [segs]
  | cons c x' ih =>
    rw [List.foldr_cons, ih]
    show segChar c (segs x' ++ R) = segChar c (segs x') ++ R
    cases hw : isWordChar c with
    | false =>
      rw [segChar_nonword _ _ hw, segChar_nonword _ _ hw, List.cons_append]
    | true =>
      cases hsx : segs x' with
      | nil =>
        rw [segChar_word_fresh _ _ hw (by simpa using hR),
          segChar_word_fresh _ _ hw (by intro s hs; cases hs)]
        simp
      | cons s ss =>
        obtain ⟨b, ws⟩ := s
        cases b with
        | true =>
          rw [List.cons_append, segChar_word_merge _ _ _ hw,
            segChar_word_merge _ _ _ hw, List.cons_append]
        | false =>
          rw [List.cons_append, segChar_word_fresh _ _ hw (by simp),
            segChar_word_fresh _ _ hw (by simp)]
          simp

theorem segs_append_nonword (x y : List Char)
    (hy : y = [] ∨ ∃ d r, y = d :: r ∧ isWordChar d = false) :
    segs (x ++ y) = segs x ++ segs y := by
  rw [segs_foldr_append]
  apply seg_app
  intro s hs
  rcases hy with hy | ⟨d, r, hy, hd⟩
  · subst hy
    simp [segs] at hs
  · subst hy
    rw [segs_cons_nonword _ hd] at hs
    simp only [List.head?_cons, Option.mem_def, Option.some.injEq] at hs
    rw [← hs]

/-- A non-empty all-word run prepends as a single `true` segment when the
rest does not start with a word character. -/
theorem segs_run (w r : List Char) (hne : w ≠ [])
    (hall : ∀ c ∈ w, isWordChar c = true)
    (hr : r = [] ∨ ∃ d r', r = d :: r' ∧ isWordChar d = false) :
    segs (w ++ r) = (true, w) :: segs r := by
  rw [segs_foldr_append]
  apply word_prepend w _ hne hall
  intro s hs
  rcases hr with hr | ⟨d, r', hr, hd⟩
  · subst hr
    simp [segs] at hs
  · subst hr
    rw [segs_cons_nonword _ hd] at hs
    simp only [List.head?_cons, Option.mem_def, Option.some.injEq] at hs
    rw [← hs]

/-- The word runs of a string, in order. -/
def segsTrue (l : List Char) : List (List Char) :=
  (segs l).filterMap (fun s => if s.1 then some s.2 else none)

theorem segsTrue_nil : segsTrue [] = [] := rfl

theorem segsTrue_cons_nonword {c : Char} (l : List Char) (h : isWordChar c = false) :
    segsTrue (c :: l) = segsTrue l := by
  unfold segsTrue
  rw [segs_cons_nonword _ h, List.filterMap_cons]
  simp

theorem segsTrue_run (w r : List Char) (hne : w ≠ [])
    (hall : ∀ c ∈ w, isWordChar c = true)
    (hr : r = [] ∨ ∃ d r', r = d :: r' ∧ isWordChar d = false) :
    segsTrue (w ++ r) = w :: segsTrue r := by
  unfold segsTrue
  rw [segs_run w r hne hall hr, List.filterMap_cons]
  simp

theorem segsTrue_append_nonword (x y : List Char)
    (hy : y = [] ∨ ∃ d r, y = d :: r ∧ isWordChar d = false) :
    segsTrue (x ++ y) = segsTrue x ++ segsTrue y := by
  unfold segsTrue
  rw [segs_append_nonword x y hy, List.filterMap_append]

theorem wsRaw_foldr_append (x y : List Char) :
    wsTokensRaw (x ++ y) = x.foldr addTok (wsTokensRaw y) := by
  unfold wsTokensRaw
  rw [List.foldr_append]

theorem wsRaw_cons_ws {c : Char} (l : List Char) (h : isWs c = true) :
    wsTokensRaw (c :: l) = [] :: wsTokensRaw l := by
  show addTok c (wsTokensRaw l) = _
  unfold addTok
  rw [h]
  simp

theorem wsTokensC_cons_ws {c : Char} (l : List Char) (h : isWs c = true) :
    wsTokensC (c :: l) = wsTokensC l := by
  unfold wsTokensC
  rw [wsRaw_cons_ws _ h]
  simp

theorem nonws_foldr_cons (w : List Char) (h : List Char) (tl : List (List Char))
    (hw : ∀ c ∈ w, isWs c = false) :
    w.foldr addTok (h :: tl) = (w ++ h) :: tl := by
  induction w with
  | nil => simp
  | cons c w' ih =>
    rw [List.foldr_cons, ih (fun c hc => hw c (List.mem_cons_of_mem _ hc))]
    unfold addTok
    rw [hw c (List.mem_cons_self _ _)]
    simp

theorem nonws_foldr_nil (w : List Char) (hw : ∀ c ∈ w, isWs c = false)
    (hne : w ≠ []) : w.foldr addTok [] = [w] := by
  induction w with
  | nil => cases hne rfl
  | cons c w' ih =>
    rw [List.foldr_cons]
    by_cases hw' : w' = []
    · subst hw'
      show addTok c [] = [[c]]
      unfold addTok
      rw [hw c (List.mem_cons_self _ _)]
      simp
    · rw [ih (fun c hc => hw c (List.mem_cons_of_mem _ hc)) hw']
      unfold addTok
      rw [hw c (List.mem_cons_self _ _)]
      simp

theorem wsTokensC_run (w r : List Char) (hw : ∀ c ∈ w, isWs c = false)
    (hne : w ≠ [])
    (hr : r = [] ∨ ∃ d r', r = d :: r' ∧ isWs d = true) :
    wsTokensC (w ++ r) = w :: wsTokensC r := by
  rcases hr with hr | ⟨d, r', hr, hd⟩
  · subst hr
    rw [List.append_nil]
    unfold wsTokensC
    rw [show wsTokensRaw w = w.foldr addTok (wsTokensRaw []) from rfl,
      show wsTokensRaw ([] : List Char) = [] from rfl,
      nonws_foldr_nil w hw hne]
    simp [List.isEmpty_iff, hne]
  · subst hr
    unfold wsTokensC
    rw [wsRaw_foldr_append, wsRaw_cons_ws _ hd, nonws_foldr_cons w [] _ hw,
      List.append_nil, List.filter_cons]
    simp [List.isEmpty_iff, hne]

theorem tok_nonws : ∀ l : List Char, ∀ w ∈ wsTokensRaw l, ∀ c ∈ w, isWs c = false := by
  intro l
  induction l with
  | nil => intro w hw; cases hw
  | cons c' rest ih =>
    intro w hw c hc
    by_cases hws : isWs c' = true
    · rw [wsRaw_cons_ws _ hws] at hw
      rcases List.mem_cons.mp hw with hw | hw
      · subst hw; cases hc
      · exact ih w hw c hc
    · have hws' : isWs c' = false := by simpa using hws
      revert hw
      show w ∈ addTok c' (wsTokensRaw rest) → _
      unfold addTok
      rw [hws']
      simp only [Bool.false_eq_true, if_false]
      cases hraw : wsTokensRaw rest with
      | nil =>
        intro hw
        rcases List.mem_singleton.mp hw with rfl
        rcases List.mem_singleton.mp hc with rfl
        exact hws'
      | cons h tl =>
        intro hw
        rcases List.mem_cons.mp hw with hw | hw
        · subst hw
          rcases List.mem_cons.mp hc with hc | hc
          · subst hc; exact hws'
          · exact ih h (hraw ▸ List.mem_cons_self _ _) c hc
        · exact ih w (hraw ▸ List.mem_cons_of_mem _ hw) c hc

theorem tok_nonempty {l : List Char} : ∀ w ∈ wsTokensC l, w ≠ [] := by
  intro w hw
  have := (List.mem_filter.mp hw).2
  simpa [List.isEmpty_iff] using this

theorem wsTokensC_sub_raw {l : List Char} {w : List Char} (h : w ∈ wsTokensC l) :
    w ∈ wsTokensRaw l := (List.mem_filter.mp h).1

/-- The tokens of a space-join of non-empty whitespace-free tokens are the
tokens themselves. -/
theorem wsTokensC_joinSpaceC :
    ∀ ws : List (List Char), (∀ w ∈ ws, w ≠ []) →
      (∀ w ∈ ws, ∀ c ∈ w, isWs c = false) →
      wsTokensC (joinSpaceC ws) = ws := by
  intro ws
  induction ws with
  | nil => intro _ _; rfl
  | cons w ws' ih =>
    intro hne hnw
    cases ws' with
    | nil =>
      have h := wsTokensC_run w [] (hnw w (List.mem_cons_self _ _))
        (hne w (List.mem_cons_self _ _)) (Or.inl rfl)
      rw [List.append_nil] at h
      show wsTokensC w = [w]
      rw [h]
      rfl
    | cons w' ws'' =>
      show wsTokensC (w ++ ' ' :: joinSpaceC (w' :: ws'')) = w :: w' :: ws''
      rw [wsTokensC_run w (' ' :: joinSpaceC (w' :: ws''))
        (hnw w (List.mem_cons_self _ _)) (hne w (List.mem_cons_self _ _))
        (Or.inr ⟨' ', _, rfl, by decide⟩)]
      rw [wsTokensC_cons_ws _ (by decide)]
      rw [ih (fun v hv => hne v (List.mem_cons_of_mem _ hv))
        (fun v hv => hnw v (List.mem_cons_of_mem _ hv))]

/-- The word runs of a space-join are the word runs of the parts. -/
theorem segsTrue_joinSpaceC :
    ∀ ws : List (List Char),
      segsTrue (joinSpaceC ws) = (ws.map segsTrue).flatten := by
  intro ws
  induction ws with
  | nil => rfl
  | cons w ws' ih =>
    cases ws' with
    | nil => simp [joinSpaceC]
    | cons w' ws'' =>
      show segsTrue (w ++ ' ' :: joinSpaceC (w' :: ws'')) = _
      rw [segsTrue_append_nonword w _ (Or.inr ⟨' ', _, rfl, space_not_word⟩),
        segsTrue_cons_nonword _ space_not_word, ih]
      simp

/-- The word runs of a string are the word runs of its whitespace tokens. -/
theorem segsTrue_wsTokens :
    ∀ (n : Nat) (l : List Char), l.length ≤ n →
      segsTrue l = ((wsTokensC l).map segsTrue).flatten := by
  intro n
  induction n with
  | zero =>
    intro l hl
    rw [List.length_eq_zero.mp (Nat.le_zero.mp hl)]
    rfl
  | succ n ih =>
    intro l hl
    cases l with
    | nil => rfl
    | cons c rest =>
      by_cases hws : isWs c = true
      · rw [wsTokensC_cons_ws _ hws, segsTrue_cons_nonword _ (ws_not_word hws)]
        exact ih rest (by simpa using Nat.le_of_succ_le_succ (by simpa using hl))
      · have hsplit := takeRun_append (fun c => !isWs c) (c :: rest)
        have hfst := takeRun_fst_cons (fun c => !isWs c) rest
          (by simpa using hws)
        have hwAll : ∀ x ∈ (takeRun (fun c => !isWs c) (c :: rest)).1, isWs x = false := by
          intro x hx
          simpa using takeRun_fst_all (fun c => !isWs c) (c :: rest) x hx
        have hne : (takeRun (fun c => !isWs c) (c :: rest)).1 ≠ [] := by
          rw [hfst]
          simp
        have hrr : (takeRun (fun c => !isWs c) (c :: rest)).2 = [] ∨
            ∃ d r', (takeRun (fun c => !isWs c) (c :: rest)).2 = d :: r' ∧ isWs d = true := by
          rcases takeRun_snd_cases (fun c => !isWs c) (c :: rest) with h | ⟨d, r, hdr, hd⟩
          · exact Or.inl h
          · exact Or.inr ⟨d, r, hdr, by simpa using hd⟩
        have hlen2 : (takeRun (fun c => !isWs c) (c :: rest)).2.length ≤ n := by
          have h1 : (takeRun (fun c => !isWs c) (c :: rest)).1.length
              + (takeRun (fun c => !isWs c) (c :: rest)).2.length
              = (c :: rest).length := by
            rw [← List.length_append, hsplit]
          have h2 : 1 ≤ (takeRun (fun c => !isWs c) (c :: rest)).1.length := by
            rw [hfst]
            simp
          simp only [List.length_cons] at h1 hl
          omega
        conv_lhs => rw [← hsplit]
        conv_rhs => rw [← hsplit]
        rw [segsTrue_append_nonword _ _ ?hy, wsTokensC_run _ _ hwAll hne hrr]
        case hy =>
          rcases hrr with h | ⟨d, r', hdr, hd⟩
          · exact Or.inl h
          · exact Or.inr ⟨d, r', hdr, ws_not_word hd⟩
        rw [List.map_cons, List.flatten_cons, ih _ hlen2]

/-- Whitespace normalisation preserves the word runs. -/
theorem segsTrue_whiteSpaceFix (t : List Char) :
    segsTrue (whiteSpaceFixC t) = segsTrue t := by
  unfold whiteSpaceFixC
  rw [segsTrue_joinSpaceC]
  exact (segsTrue_wsTokens t.length t le_rfl).symm

theorem removeArticlesC_cons_nonword {c : Char} (l : List Char)
    (h : isWordChar c = false) :
    removeArticlesC (c :: l) = c :: removeArticlesC l := by
  unfold removeArticlesC
  rw [segs_cons_nonword _ h, List.map_cons, List.flatten_cons]
  simp

theorem ra_shape (r : List Char)
    (hr : r = [] ∨ ∃ d r', r = d :: r' ∧ isWordChar d = false) :
    removeArticlesC r = [] ∨
      ∃ d rr, removeArticlesC r = d :: rr ∧ isWordChar d = false := by
  rcases hr with rfl | ⟨d, r', rfl, hd⟩
  · exact Or.inl rfl
  · rw [removeArticlesC_cons_nonword _ hd]
    exact Or.inr ⟨d, _, rfl, hd⟩

theorem removeArticlesC_run (w r : List Char) (hne : w ≠ [])
    (hall : ∀ c ∈ w, isWordChar c = true)
    (hr : r = [] ∨ ∃ d r', r = d :: r' ∧ isWordChar d = false) :
    removeArticlesC (w ++ r) =
      (if articleRuns.contains w then [' '] else w) ++ removeArticlesC r := by
  unfold removeArticlesC
  rw [segs_run w r hne hall hr, List.map_cons, List.flatten_cons]
  simp only [Bool.true_and]

/-- Removing the articles filters them out of the word-run list and keeps the
other word runs. -/
theorem segsTrue_removeArticles :
    ∀ (n : Nat) (x : List Char), x.length ≤ n →
      segsTrue (removeArticlesC x) =
        (segsTrue x).filter (fun w => !articleRuns.contains w) := by
  intro n
  induction n with
  | zero =>
    intro x hx
    rw [List.length_eq_zero.mp (Nat.le_zero.mp hx)]
    rfl
  | succ n ih =>
    intro x hx
    cases x with
    | nil => rfl
    | cons c x' =>
      by_cases hw : isWordChar c = true
      · have hsplit := takeRun_append isWordChar (c :: x')
        have hfst := takeRun_fst_cons isWordChar x' hw
        have hall : ∀ a ∈ (takeRun isWordChar (c :: x')).1, isWordChar a = true :=
          takeRun_fst_all isWordChar (c :: x')
        have hne : (takeRun isWordChar (c :: x')).1 ≠ [] := by
          rw [hfst]
          simp
        have hr := takeRun_snd_cases isWordChar (c :: x')
        have hlenr : (takeRun isWordChar (c :: x')).2.length ≤ n := by
          have h1 : (takeRun isWordChar (c :: x')).1.length
              + (takeRun isWordChar (c :: x')).2.length = (c :: x').length := by
            rw [← List.length_append, hsplit]
          have h2 : 1 ≤ (takeRun isWordChar (c :: x')).1.length := by
            rw [hfst]
            simp
          simp only [List.length_cons] at h1 hx
          omega
        rw [← hsplit, removeArticlesC_run _ _ hne hall hr, segsTrue_run _ _ hne hall hr]
        by_cases hc : articleRuns.contains (takeRun isWordChar (c :: x')).1 = true
        · rw [if_pos hc, List.singleton_append,
            segsTrue_cons_nonword _ space_not_word, ih _ hlenr, List.filter_cons, hc]
          simp
        · have hc' : articleRuns.contains (takeRun isWordChar (c :: x')).1 = false := by
            simpa using hc
          rw [if_neg hc,
            segsTrue_run _ _ hne hall (ra_shape _ hr), ih _ hlenr, List.filter_cons, hc']
          simp
      · have hw' : isWordChar c = false := by simpa using hw
        rw [removeArticlesC_cons_nonword _ hw', segsTrue_cons_nonword _ hw',
          segsTrue_cons_nonword _ hw']
        exact ih x' (by simpa using Nat.le_of_succ_le_succ (by simpa using hx))

/-- Concatenating the characters of all segments gives back the string. -/
theorem segs_join :
    ∀ (n : Nat) (l : List Char), l.length ≤ n →
      ((segs l).map (fun s => s.2)).flatten = l := by
  intro n
  induction n with
  | zero =>
    intro l hl
    rw [List.length_eq_zero.mp (Nat.le_zero.mp hl)]
    rfl
  | succ n ih =>
    intro l hl
    cases l with
    | nil => rfl
    | cons c x' =>
      by_cases hw : isWordChar c = true
      · have hsplit := takeRun_append isWordChar (c :: x')
        have hfst := takeRun_fst_cons isWordChar x' hw
        have hall : ∀ a ∈ (takeRun isWordChar (c :: x')).1, isWordChar a = true :=
          takeRun_fst_all isWordChar (c :: x')
        have hne : (takeRun isWordChar (c :: x')).1 ≠ [] := by
          rw [hfst]
          simp
        have hr := takeRun_snd_cases isWordChar (c :: x')
        have hlenr : (takeRun isWordChar (c :: x')).2.length ≤ n := by
          have h1 : (takeRun isWordChar (c :: x')).1.length
              + (takeRun isWordChar (c :: x')).2.length = (c :: x').length := by
            rw [← List.length_append, hsplit]
          have h2 : 1 ≤ (takeRun isWordChar (c :: x')).1.length := by
            rw [hfst]
            simp
          simp only [List.length_cons] at h1 hl
          omega
        rw [← hsplit, segs_run _ _ hne hall hr, List.map_cons, List.flatten_cons,
          ih _ hlenr]
      · have hw' : isWordChar c = false := by simpa using hw
        rw [segs_cons_nonword _ hw', List.map_cons, List.flatten_cons,
          ih x' (by simpa using Nat.le_of_succ_le_succ (by simpa using hl))]
        simp

/-- A string with no article word run is unchanged by article removal. -/
theorem ra_id (l : List Char)
    (h : ∀ w ∈ segsTrue l, articleRuns.contains w = false) :
    removeArticlesC l = l := by
  unfold removeArticlesC
  have hmap : (segs l).map
        (fun s => if s.1 && articleRuns.contains s.2 then [' '] else s.2)
      = (segs l).map (fun s => s.2) := by
    apply List.map_congr_left
    intro s hs
    cases hb : s.1 with
    | false => simp [hb]
    | true =>
      have hmem : s.2 ∈ segsTrue l := by
        unfold segsTrue
        refine List.mem_filterMap.mpr ⟨s, hs, ?_⟩
        rw [hb]
        simp
      rw [h s.2 hmem]
      simp
  rw [hmap, segs_join l.length l le_rfl]

theorem mem_segs_chars :
    ∀ (l : List Char), ∀ s ∈ segs l, ∀ c ∈ s.2, c ∈ l := by
  intro l
  induction l with
  | nil => intro s hs; cases hs
  | cons a rest ih =>
    intro s hs c hc
    by_cases hw : isWordChar a = true
    · revert hs
      show s ∈ segChar a (segs rest) → _
      unfold segChar
      rw [hw]
      simp only [if_true]
      cases hseg : segs rest with
      | nil =>
        intro hs
        rcases List.mem_singleton.mp hs with rfl
        rcases List.mem_singleton.mp hc with rfl
        exact List.mem_cons_self _ _
      | cons s0 ss =>
        rcases s0 with ⟨b, wrun⟩
        cases b with
        | true =>
          intro hs
          rcases List.mem_cons.mp hs with rfl | hs
          · rcases List.mem_cons.mp hc with rfl | hc
            · exact List.mem_cons_self _ _
            · exact List.mem_cons_of_mem _
                (ih (true, wrun) (hseg ▸ List.mem_cons_self _ _) c hc)
          · exact List.mem_cons_of_mem _
              (ih s (hseg ▸ List.mem_cons_of_mem _ hs) c hc)
        | false =>
          intro hs
          rcases List.mem_cons.mp hs with rfl | hs
          · rcases List.mem_singleton.mp hc with rfl
            exact List.mem_cons_self _ _
          · exact List.mem_cons_of_mem _ (ih s (hseg ▸ hs) c hc)
    · have hw' : isWordChar a = false := by simpa using hw
      rw [segs_cons_nonword _ hw'] at hs
      rcases List.mem_cons.mp hs with rfl | hs
      · rcases List.mem_singleton.mp hc with rfl
        exact List.mem_cons_self _ _
      · exact List.mem_cons_of_mem _ (ih s hs c hc)

theorem mem_wsTokensRaw_chars :
    ∀ (l : List Char), ∀ w ∈ wsTokensRaw l, ∀ c ∈ w, c ∈ l := by
  intro l
  induction l with
  | nil => intro w hw; cases hw
  | cons c' rest ih =>
    intro w hw c hc
    by_cases hws : isWs c' = true
    · rw [wsRaw_cons_ws _ hws] at hw
      rcases List.mem_cons.mp hw with rfl | hw
      · cases hc
      · exact List.mem_cons_of_mem _ (ih w hw c hc)
    · have hws' : isWs c' = false := by simpa using hws
      revert hw
      show w ∈ addTok c' (wsTokensRaw rest) → _
      unfold addTok
      rw [hws']
      simp only [Bool.false_eq_true, if_false]
      cases hraw : wsTokensRaw rest with
      | nil =>
        intro hw
        rcases List.mem_singleton.mp hw with rfl
        rcases List.mem_singleton.mp hc with rfl
        exact List.mem_cons_self _ _
      | cons h tl =>
        intro hw
        rcases List.mem_cons.mp hw with rfl | hw
        · rcases List.mem_cons.mp hc with rfl | hc
          · exact List.mem_cons_self _ _
          · exact List.mem_cons_of_mem _
              (ih h (hraw ▸ List.mem_cons_self _ _) c hc)
        · exact List.mem_cons_of_mem _
            (ih w (hraw ▸ List.mem_cons_of_mem _ hw) c hc)

theorem mem_joinSpaceC :
    ∀ (ws : List (List Char)) (c : Char), c ∈ joinSpaceC ws →
      (∃ w ∈ ws, c ∈ w) ∨ c = ' ' := by
  intro ws
  induction ws with
  | nil => intro c hc; cases hc
  | cons w ws' ih =>
    intro c hc
    cases ws' with
    | nil => exact Or.inl ⟨w, List.mem_cons_self _ _, hc⟩
    | cons w' ws'' =>
      rcases List.mem_append.mp hc with hc | hc
      · exact Or.inl ⟨w, List.mem_cons_self _ _, hc⟩
      · rcases List.mem_cons.mp hc with rfl | hc
        · exact Or.inr rfl
        · rcases ih c hc with ⟨v, hv, hcv⟩ | rfl
          · exact Or.inl ⟨v, List.mem_cons_of_mem _ hv, hcv⟩
          · exact Or.inr rfl

theorem mem_removeArticlesC_chars {l : List Char} {c : Char}
    (h : c ∈ removeArticlesC l) : c ∈ l ∨ c = ' ' := by
  unfold removeArticlesC at h
  rcases List.mem_flatten.mp h with ⟨piece, hp, hc⟩
  rcases List.mem_map.mp hp with ⟨s, hs, rfl⟩
  by_cases hcond : (s.1 && articleRuns.contains s.2) = true
  · rw [if_pos hcond] at hc
    exact Or.inr (List.mem_singleton.mp hc)
  · rw [if_neg hcond] at hc
    exact Or.inl (mem_segs_chars l s hs c hc)

theorem mem_whiteSpaceFixC_chars {t : List Char} {c : Char}
    (h : c ∈ whiteSpaceFixC t) : c ∈ t ∨ c = ' ' := by
  unfold whiteSpaceFixC at h
  rcases mem_joinSpaceC (wsTokensC t) c h with ⟨w, hw, hc⟩ | rfl
  · exact Or.inl (mem_wsTokensRaw_chars t w (wsTokensC_sub_raw hw) c hc)
  · exact Or.inr rfl

theorem mem_removePuncC_sub {l : List Char} {c : Char}
    (h : c ∈ removePuncC l) : c ∈ l := (List.mem_filter.mp h).1

theorem mem_removePuncC_not_punct {l : List Char} {c : Char}
    (h : c ∈ removePuncC l) : punctChars.contains c = false := by
  have := (List.mem_filter.mp h).2
  simpa using this

theorem map_id_of_forall {α : Type} (f : α → α) (l : List α)
    (h : ∀ x ∈ l, f x = x) : l.map f = l := by
  induction l with
  | nil => rfl
  | cons a l ih =>
    rw [List.map_cons, h a (List.mem_cons_self _ _),
      ih (fun x hx => h x (List.mem_cons_of_mem _ hx))]

/-- The character-level normalisation pipeline is idempotent. -/
theorem normChars_idem (l : List Char) :
    whiteSpaceFixC (removeArticlesC (removePuncC
      ((whiteSpaceFixC (removeArticlesC (removePuncC (l.map lowerChar)))).map
        lowerChar)))
    = whiteSpaceFixC (removeArticlesC (removePuncC (l.map lowerChar))) := by
  set X := removePuncC (l.map lowerChar) with hX
  set t := removeArticlesC X with ht
  set u := whiteSpaceFixC t with hu
  have hu_chars : ∀ c ∈ u, c ∈ l.map lowerChar ∨ c = ' ' := by
    intro c hc
    rw [hu] at hc
    rcases mem_whiteSpaceFixC_chars hc with hct | rfl
    · rw [ht] at hct
      rcases mem_removeArticlesC_chars hct with hcX | rfl
      · rw [hX] at hcX
        exact Or.inl (mem_removePuncC_sub hcX)
      · exact Or.inr rfl
    · exact Or.inr rfl
  have h1 : u.map lowerChar = u := by
    apply map_id_of_forall
    intro c hc
    rcases hu_chars c hc with hcm | rfl
    · rcases List.mem_map.mp hcm with ⟨c₀, _, rfl⟩
      exact lowerChar_idem c₀
    · exact lowerChar_space
  have hu_nopunct : ∀ c ∈ u, punctChars.contains c = false := by
    intro c hc
    rw [hu] at hc
    rcases mem_whiteSpaceFixC_chars hc with hct | rfl
    · rw [ht] at hct
      rcases mem_removeArticlesC_chars hct with hcX | rfl
      · rw [hX] at hcX
        exact mem_removePuncC_not_punct hcX
      · exact space_not_punct
    · exact space_not_punct
  have h2 : removePuncC u = u := by
    unfold removePuncC
    apply List.filter_eq_self.mpr
    intro c hc
    rw [hu_nopunct c hc]
    rfl
  have hNoArt : ∀ w ∈ segsTrue u, articleRuns.contains w = false := by
    intro w hw
    rw [hu, segsTrue_whiteSpaceFix, ht,
      segsTrue_removeArticles X.length X le_rfl] at hw
    have := (List.mem_filter.mp hw).2
    simpa using this
  have h3 : removeArticlesC u = u := ra_id u hNoArt
  have h4 : whiteSpaceFixC u = u := by
    rw [hu]
    show joinSpaceC (wsTokensC (joinSpaceC (wsTokensC t))) = joinSpaceC (wsTokensC t)
    rw [wsTokensC_joinSpaceC (wsTokensC t) tok_nonempty
      (fun w hw => tok_nonws t w (wsTokensC_sub_raw hw))]
  rw [h1, h2, h3, h4]

/-- C10: `normalize_text` is idempotent: applying it to its own output returns
that output unchanged (lower-casing, punctuation removal, article removal and
whitespace collapsing are all stable on an already-normalised string). -/
theorem normalize_text_idempotent (s : String) :
    normalize_text (normalize_text s) = normalize_text s := by
  unfold normalize_text
  exact congrArg String.mk (normChars_idem s.data)
